import Mathlib

/-!
Verification development for the DD-realtime market-data engine.

The Rust sources are shallowly embedded: `rust_decimal::Decimal` and `f64`
values are modelled as `ℚ` (the spec mandates arbitrary-precision decimal
arithmetic, widened to floating point only for transport), `u64`/`u128`
machine integers as `ℕ`, `HashSet<u128>` as `Finset ℕ`, vectors as `List`,
and fallible/panicking paths as `Option`/`DecodeOutcome`.  Each definition
is translated from the named source function; deviations are noted in the
doc comment of the definition concerned.
-/

/-- Source: `utils.rs::token_factor` — `10^decimals` as a decimal. -/
def token_factor (decimals : ℕ) : ℚ := (10 : ℚ) ^ decimals

/-- Model of `rust_decimal::Decimal::round`, which rounds to zero decimal
places using midpoint-nearest-even rounding. -/
def round_bankers (q : ℚ) : ℤ :=
  let f := ⌊q⌋
  let r := q - (f : ℚ)
  if r < 1 / 2 then f
  else if 1 / 2 < r then f + 1
  else if Even f then f else f + 1

/-- Source: `structs/openbook.rs::ObMarketInfo`, restricted to the fields the
trade/depth pipeline reads (pubkeys and mint bookkeeping omitted). -/
structure ObMarketInfo where
  name : String
  base_decimals : ℕ
  quote_decimals : ℕ
  base_lot_size : ℕ
  quote_lot_size : ℕ
deriving DecidableEq

/-- Source: `openbook_dex::matching::Side`. -/
inductive Side where
  | Bid
  | Ask
deriving DecidableEq

/-- Source: `openbook_dex::state::EventView::Fill`, restricted to the fields
`parse_openbook_account` reads (`owner`, `owner_slot`, `fee_tier`,
`client_order_id` are ignored by the parser). -/
structure FillEvent where
  side : Side
  maker : Bool
  native_qty_paid : ℕ
  native_fee_or_rebate : ℕ
  native_qty_received : ℕ
  order_id : ℕ
deriving DecidableEq

/-- An event of the OB event queue as seen by `parse_openbook_account`:
either a fill view or any other view (the parser skips the latter). -/
inductive ObEvent where
  | fill (ev : FillEvent)
  | other
deriving DecidableEq

/-- Source: `structs/market.rs::MarketTrade`, restricted to the fields the
claims are about (`market_address`, `index`, `slot`,
`transaction_signature` omitted; `order_id` is stored in the source as the
decimal string of the `u128`, modelled here as the number itself). -/
structure MarketTrade where
  slug : String
  order_id : Option ℕ
  market_buy : ℕ
  avg_price : ℚ
  amount : ℚ
  timestamp : ℕ
  blocktime : ℕ
  avg_price_lots : ℚ
  amount_lots : ℚ
deriving DecidableEq

/-- Source: `parser/openbook.rs` lines 97-100 — `price_before_fees`.
The `Ask` branch performs `u64` subtraction, modelled by truncated `ℕ`
subtraction. -/
def price_before_fees (ev : FillEvent) : ℚ :=
  match ev.side with
  | Side.Bid => ((ev.native_qty_paid + ev.native_fee_or_rebate : ℕ) : ℚ)
  | Side.Ask => ((ev.native_qty_received - ev.native_fee_or_rebate : ℕ) : ℚ)

/-- Source: `parser/openbook.rs` lines 102-111 — the readable fill price. -/
def ob_fill_price (m : ObMarketInfo) (ev : FillEvent) : ℚ :=
  match ev.side with
  | Side.Bid =>
      price_before_fees ev * token_factor m.base_decimals
        / (token_factor m.quote_decimals * (ev.native_qty_received : ℚ))
  | Side.Ask =>
      price_before_fees ev * token_factor m.base_decimals
        / (token_factor m.quote_decimals * (ev.native_qty_paid : ℚ))

/-- Source: `parser/openbook.rs` lines 113-122 — `price_lots`.  The source's
`checked_mul`/`checked_div ... unwrap_or_default` chain cannot overflow in
the arbitrary-precision model, and its division-by-zero default `0` agrees
with `ℚ` division. -/
def ob_fill_price_lots (m : ObMarketInfo) (ev : FillEvent) : ℚ :=
  ((round_bankers (ob_fill_price m ev * token_factor m.quote_decimals
      * (m.base_lot_size : ℚ) / token_factor m.base_decimals
      / (m.quote_lot_size : ℚ)) : ℤ) : ℚ)

/-- Source: `parser/openbook.rs` lines 124-129 — `size`. -/
def ob_fill_size (m : ObMarketInfo) (ev : FillEvent) : ℚ :=
  (match ev.side with
    | Side.Bid => ((ev.native_qty_received : ℕ) : ℚ)
    | Side.Ask => ((ev.native_qty_paid : ℕ) : ℚ))
    / token_factor m.base_decimals

/-- Source: `parser/openbook.rs` lines 130-134 — `size_lots`. -/
def ob_fill_size_lots (m : ObMarketInfo) (ev : FillEvent) : ℚ :=
  ob_fill_size m ev * token_factor m.quote_decimals / (m.quote_lot_size : ℚ)

/-- Source: `parser/openbook.rs` lines 148-165 — the `MarketTrade` pushed for
a maker fill; `now` is the wall-clock Unix time read at line 136. -/
def ob_fill_trade (m : ObMarketInfo) (now : ℕ) (ev : FillEvent) : MarketTrade :=
  { slug := m.name
    order_id := some ev.order_id
    market_buy := match ev.side with | Side.Ask => 0 | Side.Bid => 1
    avg_price := ob_fill_price m ev
    amount := ob_fill_size m ev
    timestamp := now
    blocktime := now
    avg_price_lots := ob_fill_price_lots m ev
    amount_lots := ob_fill_size_lots m ev }

/-- Source: `parser/openbook.rs` lines 68-170 — the body of the event loop
for one event: skip already-processed order ids, skip taker fills, otherwise
record the order id and push the trade. -/
def ob_step (m : ObMarketInfo) (now : ℕ) (st : Finset ℕ × List MarketTrade) :
    ObEvent → Finset ℕ × List MarketTrade
  | ObEvent.other => st
  | ObEvent.fill ev =>
    if ev.order_id ∈ st.1 then st
    else if ev.maker = false then st
    else (insert ev.order_id st.1, st.2 ++ [ob_fill_trade m now ev])

/-- One event-queue account update: fold the event loop over the decoded
events, threading the per-run `filled_order_ids` set and accumulating the
emitted trade records. -/
def ob_process_events (m : ObMarketInfo) (now : ℕ)
    (st : Finset ℕ × List MarketTrade) (events : List ObEvent) :
    Finset ℕ × List MarketTrade :=
  events.foldl (ob_step m now) st

/-- A run of the OB parser over a sequence of event-queue updates, starting
from the empty `filled_order_ids` set (the set is per-run, per-process).
The source builds a fresh `trades_to_insert` vector per update; the model
accumulates all emitted records of the run in order. -/
def ob_run (m : ObMarketInfo) (now : ℕ) (updates : List (List ObEvent)) :
    Finset ℕ × List MarketTrade :=
  updates.foldl (ob_process_events m now) (∅, [])

/-- Source: `structs/gigadex.rs::GdMarketInfo`, restricted to the fields the
trade/depth pipeline reads (pubkeys omitted). -/
structure GdMarketInfo where
  name : String
  base_decimals : ℕ
  quote_decimals : ℕ
  multiplier : ℕ
deriving DecidableEq

/-- Source: `parser/gigadex.rs::price_lots_to_number`. -/
def price_lots_to_number (lots : ℚ) (base_decimals quote_decimals : ℕ)
    (multiplier : ℕ) : ℚ :=
  if multiplier > 0 then
    lots / (multiplier : ℚ) * token_factor base_decimals
      / token_factor quote_decimals
  else
    lots * token_factor base_decimals / token_factor quote_decimals

/-- Source: `parser/gigadex.rs::base_lots_to_number`. -/
def base_lots_to_number (lots : ℕ) (base_decimals : ℕ) : ℚ :=
  (lots : ℚ) / token_factor base_decimals

/-- Source: `structs/gigadex.rs::GdMarketOrderLog`. -/
structure GdMarketOrderLog where
  amount : ℕ
  total_value_lamports : ℕ
  counter : ℕ
deriving DecidableEq

/-- Source: `parser/gigadex.rs` lines 144-181 — the buy/sell order-log branch
of `parse_gigadex_account`.  A zero-amount log entry is ignored (`return
Ok(())`).  Note the source passes multiplier `0` to `price_lots_to_number`,
not the market's multiplier. -/
def gd_log_trade (gm : GdMarketInfo) (is_buy_log : Bool)
    (log : GdMarketOrderLog) (now : ℕ) : Option MarketTrade :=
  if log.amount = 0 then none
  else
    let price_lots : ℚ := (log.total_value_lamports : ℚ) / (log.amount : ℚ)
    let amount_lots := log.amount
    let price := price_lots_to_number price_lots gm.base_decimals gm.quote_decimals 0
    let amount := base_lots_to_number amount_lots gm.base_decimals
    some
      { slug := gm.name
        order_id := none
        market_buy := if is_buy_log then 1 else 0
        avg_price := price
        amount := amount
        timestamp := now
        blocktime := now
        avg_price_lots := price_lots
        amount_lots := (amount_lots : ℚ) }

/-- Source: `structs/gigadex.rs::GdMarketOrder`. -/
structure GdMarketOrder where
  uid : ℕ
  price_lots : ℕ
  amount_lots : ℕ
deriving DecidableEq

/-- Source: `parser/gigadex.rs` lines 70-79 — `cur_orders` bucketing: the
orders of a uid, in decoder order (the source pushes onto the uid's vector
while scanning `gd_orders` left to right). -/
def bucket_orders (xs : List GdMarketOrder) (u : ℕ) : List GdMarketOrder :=
  xs.filter (fun x => x.uid == u)

/-- The key set of `cur_orders`. -/
def order_uids (xs : List GdMarketOrder) : Finset ℕ :=
  (xs.map (fun x => x.uid)).toFinset

/-- Model of a `HashMap<u64, Vec<GdMarketOrder>>` snapshot: a finite key set
together with the list stored at each key (`get` is only meaningful on
`keys`). -/
structure UidMap where
  keys : Finset ℕ
  get : ℕ → List GdMarketOrder

/-- `HashMap::get`. -/
def UidMap.lookup (mp : UidMap) (u : ℕ) : Option (List GdMarketOrder) :=
  if u ∈ mp.keys then some (mp.get u) else none

/-- Result of one bids/asks reconciliation pass: the uids that received a
pub/sub event, the subset of those that received the empty-list
(cancellation) event, and the replacement prior map. -/
structure GdReconcileResult where
  published_uids : Finset ℕ
  empty_event_uids : Finset ℕ
  new_prev : UidMap

/-- Source: `parser/gigadex.rs` lines 56-131 — the bids/asks branch of
`parse_gigadex_account`.  First loop: for each uid of `cur_orders`, publish
when `prev_orders.is_some_and(|o| o != orders) || prev_orders.is_none()`.
Second loop: for each prior uid absent from `cur_orders`, publish an
empty-list event.  Finally `*prev_uid_orders = cur_orders`.  The hash-map
iteration order is unspecified, so the model returns the uid sets. -/
def gd_reconcile (prev : UidMap) (gd_orders : List GdMarketOrder) :
    GdReconcileResult :=
  let cur := bucket_orders gd_orders
  let cur_keys := order_uids gd_orders
  let changed := cur_keys.filter (fun u => prev.lookup u ≠ some (cur u))
  let removed := prev.keys.filter (fun u => u ∉ cur_keys)
  { published_uids := changed ∪ removed
    empty_event_uids := removed
    new_prev := ⟨cur_keys, cur⟩ }

/-- Source: `structs/slab.rs::LeafNode` (the `tag` and `padding` fields are
encoded by the `SlabNode` constructor; `owner` omitted). -/
structure LeafNode where
  owner_slot : ℕ
  fee_tier : ℕ
  key : ℕ
  quantity : ℕ
  client_order_id : ℕ
deriving DecidableEq

/-- Source: `structs/slab.rs::LeafNode::price` — the upper 64 bits of the
128-bit key. -/
def LeafNode.price (l : LeafNode) : ℕ := l.key / 2 ^ 64

/-- Source: `structs/slab.rs::NodeTag` and the node payloads: a decoded
72-byte slab node. -/
inductive SlabNode where
  | uninitialized
  | inner (prefix_len : ℕ) (key : ℕ) (child0 child1 : ℕ)
  | leaf (l : LeafNode)
  | free (next : ℕ)
  | lastFree
deriving DecidableEq

/-- The decoded slab: header (`root_node`, `leaf_count`) plus the node
array (bookkeeping header fields ignored by the source are omitted). -/
structure Slab where
  root_node : ℕ
  leaf_count : ℕ
  nodes : List SlabNode
deriving DecidableEq

/-- Source: `structs/slab.rs::Slab::get` — resolve a handle; only `Inner`
and `Leaf` nodes are returned. -/
def Slab.get (s : Slab) (key : ℕ) : Option SlabNode :=
  match s.nodes.get? key with
  | some (SlabNode.inner pl k c0 c1) => some (SlabNode.inner pl k c0 c1)
  | some (SlabNode.leaf l) => some (SlabNode.leaf l)
  | _ => none

/-- Source: `structs/slab.rs::Slab::root`. -/
def Slab.root (s : Slab) : Option ℕ :=
  if s.leaf_count = 0 then none else some s.root_node

/-- Source: `structs/slab.rs::Slab::traverse::walk_rec`, with explicit fuel
(the source recursion is unbounded; `fuel = nodes.length + 1` is shown
sufficient for any slab matched by a finite tree).  The source's
`get(h).unwrap().case().unwrap()` panic on an unresolvable handle is
modelled as `none`, as is fuel exhaustion. -/
def walk_rec (s : Slab) (descending : Bool) : ℕ → ℕ → Option (List LeafNode)
  | 0, _ => none
  | fuel + 1, sub_root =>
    match s.get sub_root with
    | some (SlabNode.leaf l) => some [l]
    | some (SlabNode.inner _ _ c0 c1) =>
      if descending then
        match walk_rec s descending fuel c1, walk_rec s descending fuel c0 with
        | some a, some b => some (a ++ b)
        | _, _ => none
      else
        match walk_rec s descending fuel c0, walk_rec s descending fuel c1 with
        | some a, some b => some (a ++ b)
        | _, _ => none
    | _ => none

/-- Source: `structs/slab.rs::Slab::traverse`.  The final
`assert_eq!(buf.len(), buf.capacity())` (capacity = `leaf_count`) is
modelled as a length check returning `none` on failure. -/
def Slab.traverse (s : Slab) (descending : Bool) : Option (List LeafNode) :=
  match s.root with
  | none => if 0 = s.leaf_count then some [] else none
  | some r =>
    match walk_rec s descending (s.nodes.length + 1) r with
    | some buf => if buf.length = s.leaf_count then some buf else none
    | none => none

/-- A finite unfolding of a slab's reachable tree, each node labelled with
the slab handle it was read from.  Used to state well-formedness of a slab:
a slab is well formed precisely when such a tree matches its root. -/
inductive HTree where
  | leaf (h : ℕ) (l : LeafNode)
  | inner (h : ℕ) (t0 t1 : HTree)
deriving DecidableEq

/-- The handle at the root of the unfolding. -/
def HTree.handle : HTree → ℕ
  | HTree.leaf h _ => h
  | HTree.inner h _ _ => h

/-- Node count of the unfolding. -/
def HTree.size : HTree → ℕ
  | HTree.leaf _ _ => 1
  | HTree.inner _ t0 t1 => t0.size + t1.size + 1

/-- Height of the unfolding (a single leaf has height 0). -/
def HTree.height : HTree → ℕ
  | HTree.leaf _ _ => 0
  | HTree.inner _ t0 t1 => max t0.height t1.height + 1

/-- The leaves of the unfolding in left-to-right (ascending traversal)
order. -/
def HTree.leaves : HTree → List LeafNode
  | HTree.leaf _ l => [l]
  | HTree.inner _ t0 t1 => t0.leaves ++ t1.leaves

/-- `Matches s t`: the tree `t` is the unfolding of slab `s` from handle
`t.handle` — every handle resolves via `Slab.get` to a node of the matching
kind, with inner-node children resolving recursively.  (A slab whose
reachable handle graph is cyclic admits no such finite unfolding.) -/
inductive Matches (s : Slab) : HTree → Prop
  | leaf (h : ℕ) (l : LeafNode) :
      s.get h = some (SlabNode.leaf l) → Matches s (HTree.leaf h l)
  | inner (h : ℕ) (pl k : ℕ) (t0 t1 : HTree) :
      s.get h = some (SlabNode.inner pl k t0.handle t1.handle) →
      Matches s t0 → Matches s t1 → Matches s (HTree.inner h t0 t1)

/-- The critbit ordering invariant: at every inner node, every key of the
left subtree is strictly below every key of the right subtree. -/
def HTree.Ordered : HTree → Prop
  | HTree.leaf _ _ => True
  | HTree.inner _ t0 t1 =>
      (∀ a ∈ t0.leaves, ∀ b ∈ t1.leaves, a.key < b.key) ∧
        t0.Ordered ∧ t1.Ordered

/-- `Sub u t`: `u` occurs as a subtree of `t` (reflexively). -/
inductive HTree.Sub : HTree → HTree → Prop
  | refl (t : HTree) : HTree.Sub t t
  | left {u t0 : HTree} (h : ℕ) (t1 : HTree) :
      HTree.Sub u t0 → HTree.Sub u (HTree.inner h t0 t1)
  | right {u t1 : HTree} (h : ℕ) (t0 : HTree) :
      HTree.Sub u t1 → HTree.Sub u (HTree.inner h t0 t1)

/-- Source: `structs/market.rs::MarketOrder`. -/
structure MarketOrder where
  price : ℚ
  amount : ℚ
  price_lots : ℕ
  size_lots : ℕ
deriving DecidableEq

/-- Source: `structs/slab.rs::readable_price`. -/
def readable_price (price_lots : ℕ) (market : ObMarketInfo) : ℚ :=
  (price_lots : ℚ) * (market.quote_lot_size : ℚ) * token_factor market.base_decimals
    / ((market.base_lot_size : ℚ) * token_factor market.quote_decimals)

/-- Source: `structs/slab.rs::readable_quantity`. -/
def readable_quantity (quantity : ℕ) (market : ObMarketInfo) : ℚ :=
  (quantity : ℚ) * (market.base_lot_size : ℚ) / token_factor market.base_decimals

/-- Source: the level-accumulation loop shared by
`structs/slab.rs::construct_levels` and `parser/gigadex.rs::sort_orders`:
scan `(price, quantity)` entries, merging into the last level on equal
price, stopping once `depth` levels exist and a new price appears.  The
accumulator holds the levels in reverse (head = most recent level), as the
source's `levels[len - 1]` access suggests. -/
def agg_levels (depth : ℕ) : List (ℕ × ℕ) → List (ℕ × ℕ) → List (ℕ × ℕ)
  | [], acc => acc.reverse
  | x :: xs, acc =>
    match acc with
    | [] =>
      if ([] : List (ℕ × ℕ)).length = depth then ([] : List (ℕ × ℕ)).reverse
      else agg_levels depth xs [x]
    | (p, q) :: rest =>
      if p = x.1 then agg_levels depth xs ((p, q + x.2) :: rest)
      else if ((p, q) :: rest).length = depth then ((p, q) :: rest).reverse
      else agg_levels depth xs (x :: ((p, q) :: rest))

/-- Source: `structs/slab.rs::construct_levels`. -/
def construct_levels (leaves : List LeafNode) (market : ObMarketInfo)
    (depth : ℕ) : List MarketOrder :=
  (agg_levels depth (leaves.map (fun x => (x.price, x.quantity))) []).map
    (fun x =>
      { price := readable_price x.1 market
        amount := readable_quantity x.2 market
        price_lots := x.1
        size_lots := x.2 })

/-- Source: `parser/gigadex.rs::sort_orders`.  The source's stable
`sort_by_key(price_lots)` is modelled by `List.mergeSort`; bids then reverse
the ascending order. -/
def sort_orders (orders : List GdMarketOrder) (market : GdMarketInfo)
    (depth : ℕ) (is_bid : Bool) : List MarketOrder :=
  let sorted := orders.mergeSort (fun a b => decide (a.price_lots ≤ b.price_lots))
  let directed := if is_bid then sorted.reverse else sorted
  (agg_levels depth (directed.map (fun x => (x.price_lots, x.amount_lots))) []).map
    (fun x =>
      { price_lots := x.1
        size_lots := x.2
        price := price_lots_to_number (x.1 : ℚ) market.base_decimals
            market.quote_decimals market.multiplier
        amount := base_lots_to_number x.2 market.base_decimals })

/-- Total quantity carried by the entries of `xs` at price `p`. -/
def sum_at_price (p : ℕ) (xs : List (ℕ × ℕ)) : ℕ :=
  ((xs.filter (fun x => x.1 == p)).map Prod.snd).sum

/-- The cross condition maintained by the level-accumulation loop: an
unprocessed entry's price either equals the most recent level's price or is
strictly beyond it, and is strictly beyond every older level. -/
def acc_rel (R : ℕ → ℕ → Prop) (acc : List (ℕ × ℕ)) (y : ℕ × ℕ) : Prop :=
  match acc with
  | [] => True
  | a :: rest => (y.1 = a.1 ∨ R a.1 y.1) ∧ ∀ b ∈ rest, R b.1 y.1

/-- Source: `structs/market.rs::TradeData`. -/
structure TradeData where
  price : ℚ
  amount : ℚ
  market_buy : Bool
  timestamp : ℕ
deriving DecidableEq

/-- Source: `processor/market.rs::update_trades` lines 63-87 — the
`recent_trades:{address}` maintenance.  The cache list is head-newest;
`lrange 0 -1` reads head to tail, `extend` appends the batch at the logical
tail, `rpop(len - 100)` removes that many entries from the tail (at most
the list's length), and `lpush` pushes the batch entries one by one at the
head, so the batch ends up reversed at the head. -/
def update_recent_trades (existing new_trades : List TradeData) :
    List TradeData :=
  let trades_len := (existing ++ new_trades).length
  let kept :=
    if trades_len > 100 then existing.take (existing.length - (trades_len - 100))
    else existing
  new_trades.reverse ++ kept

/-- Source: `structs/market.rs::CandleData`.  The Rust field `open` is a
Lean keyword and is embedded as `open_`. -/
structure CandleData where
  open_ : ℚ
  high : ℚ
  low : ℚ
  close : ℚ
  amount : ℚ
  begin_ts : ℕ
  end_ts : ℕ
  unit : String
  slug : String
deriving DecidableEq

/-- Source: `processor/db.rs` lines 25-31 — bucket width per unit. -/
def unit_seconds : String → ℕ
  | "1m" => 60
  | "15m" => 60 * 15
  | "4h" => 3600 * 4
  | "1d" => 86400
  | _ => 60

/-- Model of the `tb_market_candles` query of `processor/db.rs` lines 55-64:
the persisted candle for `(slug, unit)` with the greatest `begin_ts`
strictly below `ts` (`.lt("begin_ts", ts).order("begin_ts.desc").limit(1)`),
taken over the table contents `db`. -/
def latest_candle_before (db : List CandleData) (slug unit : String)
    (ts : ℕ) : Option CandleData :=
  (db.filter (fun c => c.slug == slug && c.unit == unit && decide (c.begin_ts < ts))).foldl
    (fun best c =>
      match best with
      | none => some c
      | some b => if b.begin_ts < c.begin_ts then some c else some b)
    none

/-- Source: `processor/db.rs` lines 42-52 — the in-batch prior close: keys
of `candle_set` sorted descending, first key strictly below `begin_ts`
contributes its close, else the `open_price` stays `0.0`. -/
def prior_close_in_batch (cset : List (ℕ × CandleData)) (begin_ts : ℕ) : ℚ :=
  match
    (cset.filter (fun e => decide (e.1 < begin_ts))).foldl
      (fun best e =>
        match best with
        | none => some e
        | some b => if b.1 < e.1 then some e else some b)
      none
  with
  | some e => e.2.close
  | none => 0

/-- Source: `processor/db.rs` lines 34-102 — the body of the candle loop for
one trade.  `blocktime` is the FIRST trade's blocktime (the loop reads the
outer `blocktime` variable, not `trade.blocktime`), so `begin_ts` is the
same for every trade of the batch.  The `open_price` resolution uses the
source's `== 0.0` sentinels. -/
def candle_step (db : List CandleData) (market_slug unit : String)
    (delta_secs blocktime : ℕ) (cset : List (ℕ × CandleData))
    (trade : MarketTrade) : List (ℕ × CandleData) :=
  let begin_ts := blocktime / delta_secs * delta_secs
  let end_ts := begin_ts + delta_secs
  let price := trade.avg_price
  let amount := trade.amount
  if (cset.lookup begin_ts).isSome then
    cset.map (fun e =>
      if e.1 = begin_ts then
        (e.1,
          { e.2 with
            amount := e.2.amount + amount
            high := max e.2.high price
            low := min e.2.low price
            close := price })
      else e)
  else
    let o1 := prior_close_in_batch cset begin_ts
    let o2 :=
      if o1 = 0 then
        match latest_candle_before db market_slug unit begin_ts with
        | some pc => pc.close
        | none => 0
      else o1
    let o3 := if o2 = 0 then price else o2
    cset ++
      [(begin_ts,
        { open_ := o3, high := price, low := price, close := price
          amount := amount, begin_ts := begin_ts, end_ts := end_ts
          unit := unit, slug := trade.slug })]

/-- Source: `processor/db.rs::insert_candles`.  `trades.first().unwrap()`
panics on an empty batch, modelled as `none`.  The returned candles are the
values of `candle_set` (in bucket-creation order). -/
def insert_candles (db : List CandleData) (trades : List MarketTrade)
    (unit : String) : Option (List CandleData) :=
  match trades with
  | [] => none
  | t0 :: _ =>
    some
      ((trades.foldl (candle_step db t0.slug unit (unit_seconds unit) t0.blocktime) []).map
        Prod.snd)

/-- The open-price resolution actually performed by `insert_candles` for the
(single) bucket of a batch: the persisted close when a row exists with a
nonzero close, else the first trade's price. -/
def resolve_open (db : List CandleData) (slug unit : String) (begin_ts : ℕ)
    (first_price : ℚ) : ℚ :=
  match latest_candle_before db slug unit begin_ts with
  | some pc => if pc.close = 0 then first_price else pc.close
  | none => first_price

/-- OHLC-and-volume accumulation of one further trade into a candle
(`processor/db.rs` lines 96-100). -/
def candle_upd (c : CandleData) (t : MarketTrade) : CandleData :=
  { c with
    amount := c.amount + t.amount
    high := max c.high t.avg_price
    low := min c.low t.avg_price
    close := t.avg_price }

/-- Result of a decoder in the embedding: a value, a recoverable error
(`Err` returned to the caller), or a Rust panic (which, since the
subscription loop calls the parsers inline and nothing catches unwinding,
aborts the process). -/
inductive DecodeOutcome (α : Type) where
  | ok (val : α)
  | err
  | panic
deriving DecidableEq

/-- Source: `structs/gigadex.rs::Entry` (a balance-table entry). -/
structure BalanceEntry where
  lamports : ℕ
  lots : ℕ
deriving DecidableEq

/-- Source: `structs/gigadex.rs::USERS_PER_MARKET`. -/
def USERS_PER_MARKET : ℕ := 10000

/-- Source: `structs/gigadex.rs::UserBalances` — `num_users` plus the entry
table (`bytemuck` guarantees exactly `USERS_PER_MARKET` entries for a
well-sized account; the list length is left general so that the access
pattern can be stated). -/
structure UserBalances where
  num_users : ℕ
  entries : List BalanceEntry
deriving DecidableEq

/-- Source: `structs/gigadex.rs::GdBalance`. -/
structure GdBalance where
  lamports : ℚ
  lots : ℚ
deriving DecidableEq

/-- Source: `parser/gigadex.rs` lines 370-379 — the balance built for one
uid. -/
def mk_gd_balance (e : BalanceEntry) (base_decimals quote_decimals : ℕ) :
    GdBalance :=
  { lamports := (e.lamports : ℚ) / token_factor quote_decimals
    lots := base_lots_to_number e.lots base_decimals }

/-- Source: `parser/gigadex.rs` lines 368-380 — the loop
`for uid in 1..(num_users + 1) { entries[uid] ... }`.  The index
`entries[uid as usize]` is an unchecked array access: out of bounds is a
Rust panic. -/
def balances_loop (entries : List BalanceEntry) (bd qd : ℕ)
    (uid max_users : ℕ) : DecodeOutcome (List (ℕ × GdBalance)) :=
  if uid < max_users then
    match entries.get? uid with
    | none => DecodeOutcome.panic
    | some e =>
      match balances_loop entries bd qd (uid + 1) max_users with
      | DecodeOutcome.ok rest => DecodeOutcome.ok ((uid, mk_gd_balance e bd qd) :: rest)
      | o => o
  else DecodeOutcome.ok []
termination_by max_users - uid

/-- Source: `parser/gigadex.rs::parse_balances_account` (the map is returned
as an association list keyed by uid). -/
def parse_balances_account (ub : UserBalances) (bd qd : ℕ) :
    DecodeOutcome (List (ℕ × GdBalance)) :=
  balances_loop ub.entries bd qd 1 (ub.num_users + 1)

/-- Source: `structs/slab.rs::SLAB_HEADER_LEN` (size of `SlabHeader`). -/
def SLAB_HEADER_LEN : ℕ := 32

/-- Source: `structs/slab.rs::_NODE_SIZE`. -/
def NODE_SIZE : ℕ := 72

/-- Source: `structs/slab.rs::Slab::new` — the buffer framing on a raw
account of `raw_len` bytes, returning the node-array length.  The source
computes `raw_bytes.len() - 7` (a `usize` underflow for `raw_len < 7`) and
slices `[13..raw_len - 7]` (out of range for `raw_len < 20`), then
`.checked_sub(SLAB_HEADER_LEN).unwrap()`: each failure is a Rust panic, not
a returned error. -/
def slab_new_frame (raw_len : ℕ) : DecodeOutcome ℕ :=
  if raw_len < 13 + 7 then DecodeOutcome.panic
  else
    let bytes_len := raw_len - 20
    if bytes_len < SLAB_HEADER_LEN then DecodeOutcome.panic
    else DecodeOutcome.ok ((bytes_len - SLAB_HEADER_LEN) / NODE_SIZE)

/-- Byte size of `structs/gigadex.rs::OrderTree` (packed):
`8*2 + 1000*56 + 8 + 32 + 8 + 8 + 64*24 + 8 + 64*56 + 8`. -/
def ORDER_TREE_BYTES : ℕ := 61208

/-- Source: `parser/gigadex.rs::parse_order_account` framing — `&data[8..]`
(out of range for `raw_len < 8`, a panic) then
`bytemuck::from_bytes::<OrderTree>` (panics unless the slice length equals
the struct size exactly). -/
def parse_order_account_frame (raw_len : ℕ) : DecodeOutcome ℕ :=
  if raw_len < 8 then DecodeOutcome.panic
  else if raw_len - 8 ≠ ORDER_TREE_BYTES then DecodeOutcome.panic
  else DecodeOutcome.ok (raw_len - 8)

/-- Spec §8(a) market parameters: `base_decimals=6, quote_decimals=6,
base_lot=100, quote_lot=10`. -/
def ob_market_8a : ObMarketInfo := ⟨"ob", 6, 6, 100, 10⟩

/-- Spec §8(a) fill event: `side=Bid, paid=1_000_000, rebate=1_000,
received=500_000, order_id=42`, maker side. -/
def ob_fill_8a : FillEvent := ⟨Side.Bid, true, 1000000, 1000, 500000, 42⟩

/-- Spec §8(b) market parameters: `base_decimals=9, quote_decimals=6,
multiplier=1_000_000`. -/
def gd_market_8b : GdMarketInfo := ⟨"gd", 9, 6, 1000000⟩

/-- Spec §8(b) log record: `amount=1_000_000_000,
total_value_lamports=2_000_000`. -/
def gd_log_8b : GdMarketOrderLog := ⟨1000000000, 2000000, 0⟩

/-- A trade at blocktime 60 with price 10 and amount 1 (spec §8(e) first
trade; also the single trade of the candle counterexamples). -/
def trade_t60 : MarketTrade := ⟨"m", none, 1, 10, 1, 60, 60, 1, 1⟩

/-- A trade at blocktime 61 with price 12 and amount 2 (spec §8(e)). -/
def trade_t61 : MarketTrade := ⟨"m", none, 1, 12, 2, 61, 61, 1, 1⟩

/-- A trade at blocktime 62 with price 9 and amount 3 (spec §8(e)). -/
def trade_t62 : MarketTrade := ⟨"m", none, 1, 9, 3, 62, 62, 1, 1⟩

/-- A persisted 1m candle for slug `m` with `begin_ts = 0` and close 0. -/
def db_row_close0 : CandleData := ⟨5, 5, 5, 0, 1, 0, 60, "1m", "m"⟩

/-- A persisted 1m candle for slug `m` with `begin_ts = 0` and close 20. -/
def db_row_close20 : CandleData := ⟨5, 5, 5, 20, 1, 0, 60, "1m", "m"⟩

/-- A fixed cache entry used by the recent-trades theorems. -/
def td_unit : TradeData := ⟨1, 1, true, 0⟩

/-- Order `A` of the §8(d) example (uid 1). -/
def gd_order_A : GdMarketOrder := ⟨1, 10, 1⟩

/-- Order `B` of the §8(d) example (uid 2). -/
def gd_order_B : GdMarketOrder := ⟨2, 10, 1⟩

/-- Order `C` of the §8(d) example (uid 1). -/
def gd_order_C : GdMarketOrder := ⟨1, 11, 1⟩

/-- Order `D` of the §8(d) example (uid 3). -/
def gd_order_D : GdMarketOrder := ⟨3, 12, 1⟩

/-- The §8(d) prior map `{1: [A], 2: [B]}`. -/
def prev_8d : UidMap :=
  ⟨{1, 2}, fun u => if u = 1 then [gd_order_A] else if u = 2 then [gd_order_B] else []⟩

/-- The §8(d) current decoder output, bucketing to `{1: [A,C], 3: [D]}`. -/
def cur_8d : List GdMarketOrder := [gd_order_A, gd_order_C, gd_order_D]

/-- A concrete slab leaf with key 5. -/
def leaf_k5 : LeafNode := ⟨0, 0, 5, 7, 0⟩

/-- A concrete slab leaf with key 9. -/
def leaf_k9 : LeafNode := ⟨0, 0, 9, 11, 0⟩

/-- A concrete two-leaf slab: root inner node 0 with children 1 (key 5) and
2 (key 9). -/
def slab_ex : Slab :=
  ⟨0, 2, [SlabNode.inner 0 0 1 2, SlabNode.leaf leaf_k5, SlabNode.leaf leaf_k9]⟩

/-- The unfolding of `slab_ex` from its root. -/
def htree_ex : HTree :=
  HTree.inner 0 (HTree.leaf 1 leaf_k5) (HTree.leaf 2 leaf_k9)

theorem ob_step_fill_eq (m : ObMarketInfo) (now : ℕ)
    (st : Finset ℕ × List MarketTrade) (ev : FillEvent) :
    ob_step m now st (ObEvent.fill ev)
      = if ev.maker = true ∧ ev.order_id ∉ st.1
        then (insert ev.order_id st.1, st.2 ++ [ob_fill_trade m now ev])
        else st := by
  by_cases hm : ev.order_id ∈ st.1
  · cases hb : ev.maker <;> simp [ob_step, hm, hb]
  · cases hb : ev.maker <;> simp [ob_step, hm, hb]

theorem ob_step_origin (m : ObMarketInfo) (now : ℕ)
    (st : Finset ℕ × List MarketTrade) (e : ObEvent) :
    ∀ t ∈ (ob_step m now st e).2,
      t ∈ st.2 ∨ ∃ ev, e = ObEvent.fill ev ∧ ev.maker = true
        ∧ t = ob_fill_trade m now ev := by
  intro t ht
  cases e with
  | other => exact Or.inl ht
  | fill ev =>
    rw [ob_step_fill_eq] at ht
    split at ht
    · rename_i hcond
      rcases List.mem_append.mp ht with h | h
      · exact Or.inl h
      · exact Or.inr ⟨ev, rfl, hcond.1, by simpa using h⟩
    · exact Or.inl ht

theorem ob_process_events_origin (m : ObMarketInfo) (now : ℕ) :
    ∀ (evs : List ObEvent) (st : Finset ℕ × List MarketTrade),
      ∀ t ∈ (ob_process_events m now st evs).2,
        t ∈ st.2 ∨ ∃ ev, ObEvent.fill ev ∈ evs ∧ ev.maker = true
          ∧ t = ob_fill_trade m now ev := by
  intro evs
  induction evs with
  | nil => intro st t ht; exact Or.inl ht
  | cons e rest ih =>
    intro st t ht
    have h2 := ih (ob_step m now st e) t
      (by simpa [ob_process_events, List.foldl_cons] using ht)
    rcases h2 with h2 | ⟨ev, hev, hmk, hteq⟩
    · rcases ob_step_origin m now st e t h2 with h3 | ⟨ev, he, hmk, hteq⟩
      · exact Or.inl h3
      · exact Or.inr ⟨ev, by simp [he], hmk, hteq⟩
    · exact Or.inr ⟨ev, by simp [hev], hmk, hteq⟩

theorem ob_step_inv (m : ObMarketInfo) (now : ℕ)
    (st : Finset ℕ × List MarketTrade) (e : ObEvent)
    (h1 : (st.2.map MarketTrade.order_id).Nodup)
    (h2 : ∀ t ∈ st.2, ∃ i, t.order_id = some i ∧ i ∈ st.1) :
    ((ob_step m now st e).2.map MarketTrade.order_id).Nodup
      ∧ ∀ t ∈ (ob_step m now st e).2,
          ∃ i, t.order_id = some i ∧ i ∈ (ob_step m now st e).1 := by
  cases e with
  | other => exact ⟨h1, h2⟩
  | fill ev =>
    rw [ob_step_fill_eq]
    split
    · rename_i hcond
      refine ⟨?_, ?_⟩
      · rw [List.map_append]
        refine List.Nodup.append h1 (by simp) ?_
        intro x hx hx'
        simp only [List.map_cons, List.map_nil, List.mem_singleton] at hx'
        subst hx'
        simp only [List.mem_map] at hx
        obtain ⟨t, htmem, hteq⟩ := hx
        obtain ⟨i, hi, hmem⟩ := h2 t htmem
        rw [hi] at hteq
        have : i = ev.order_id := by
          simpa [ob_fill_trade] using hteq
        exact hcond.2 (this ▸ hmem)
      · intro t ht
        rcases List.mem_append.mp ht with h' | h'
        · obtain ⟨i, hi, hmem⟩ := h2 t h'
          exact ⟨i, hi, Finset.mem_insert_of_mem hmem⟩
        · have : t = ob_fill_trade m now ev := by simpa using h'
          subst this
          exact ⟨ev.order_id, rfl, Finset.mem_insert_self _ _⟩
    · exact ⟨h1, h2⟩

theorem ob_process_events_inv (m : ObMarketInfo) (now : ℕ) :
    ∀ (evs : List ObEvent) (st : Finset ℕ × List MarketTrade),
      (st.2.map MarketTrade.order_id).Nodup →
      (∀ t ∈ st.2, ∃ i, t.order_id = some i ∧ i ∈ st.1) →
      ((ob_process_events m now st evs).2.map MarketTrade.order_id).Nodup
        ∧ ∀ t ∈ (ob_process_events m now st evs).2,
            ∃ i, t.order_id = some i ∧ i ∈ (ob_process_events m now st evs).1 := by
  intro evs
  induction evs with
  | nil => intro st h1 h2; exact ⟨h1, h2⟩
  | cons e rest ih =>
    intro st h1 h2
    obtain ⟨h1', h2'⟩ := ob_step_inv m now st e h1 h2
    simpa [ob_process_events, List.foldl_cons] using
      ih (ob_step m now st e) h1' h2'

theorem ob_run_inv (m : ObMarketInfo) (now : ℕ) :
    ∀ (updates : List (List ObEvent)) (st : Finset ℕ × List MarketTrade),
      (st.2.map MarketTrade.order_id).Nodup →
      (∀ t ∈ st.2, ∃ i, t.order_id = some i ∧ i ∈ st.1) →
      ((updates.foldl (ob_process_events m now) st).2.map MarketTrade.order_id).Nodup
        ∧ ∀ t ∈ (updates.foldl (ob_process_events m now) st).2,
            ∃ i, t.order_id = some i ∧ i ∈ (updates.foldl (ob_process_events m now) st).1 := by
  intro updates
  induction updates with
  | nil => intro st h1 h2; exact ⟨h1, h2⟩
  | cons evs rest ih =>
    intro st h1 h2
    obtain ⟨h1', h2'⟩ := ob_process_events_inv m now evs st h1 h2
    simpa [List.foldl_cons] using ih (ob_process_events m now st evs) h1' h2'

theorem ob_run_origin (m : ObMarketInfo) (now : ℕ) :
    ∀ (updates : List (List ObEvent)) (st : Finset ℕ × List MarketTrade),
      ∀ t ∈ (updates.foldl (ob_process_events m now) st).2,
        t ∈ st.2 ∨ ∃ ev, (∃ evs ∈ updates, ObEvent.fill ev ∈ evs) ∧ ev.maker = true
          ∧ t = ob_fill_trade m now ev := by
  intro updates
  induction updates with
  | nil => intro st t ht; exact Or.inl ht
  | cons evs rest ih =>
    intro st t ht
    have h2 := ih (ob_process_events m now st evs) t (by simpa [List.foldl_cons] using ht)
    rcases h2 with h2 | ⟨ev, ⟨l, hl, hevl⟩, hmk, hteq⟩
    · rcases ob_process_events_origin m now evs st t h2 with h3 | ⟨ev, he, hmk, hteq⟩
      · exact Or.inl h3
      · exact Or.inr ⟨ev, ⟨evs, by simp, he⟩, hmk, hteq⟩
    · exact Or.inr ⟨ev, ⟨l, by simp [hl], hevl⟩, hmk, hteq⟩

/-- C1: For every OB event-queue update, every trade record emitted comes
from a maker fill event of that update, and the record satisfies the spec's
formulas: `price = (paid + rebate)·10^bd / (10^qd·received)` for a bid and
`(received − rebate)·10^bd / (10^qd·paid)` for an ask; `size =
counter_qty/10^bd` with `counter_qty = received` (bid) / `paid` (ask);
`price_lots = round(price·10^qd·base_lot/(10^bd·quote_lot))`;
`size_lots = size·10^qd/quote_lot`; `market_buy = 1` iff bid; `order_id`
carries the event's order id.  In particular the §8(a) inputs produce
`price = 2.002`, `size = 0.5`, `price_lots = 20`, `size_lots = 50_000`,
`market_buy = 1`, `order_id = 42`. -/
theorem claim_C1_ob_fill_derivation :
    (∀ (m : ObMarketInfo) (now : ℕ) (ev : FillEvent),
      (ev.side = Side.Bid →
        (ob_fill_trade m now ev).avg_price
            = ((ev.native_qty_paid : ℚ) + (ev.native_fee_or_rebate : ℚ))
                * 10 ^ m.base_decimals
                / (10 ^ m.quote_decimals * (ev.native_qty_received : ℚ))
          ∧ (ob_fill_trade m now ev).amount
              = (ev.native_qty_received : ℚ) / 10 ^ m.base_decimals
          ∧ (ob_fill_trade m now ev).market_buy = 1)
      ∧ (ev.side = Side.Ask →
          ev.native_fee_or_rebate ≤ ev.native_qty_received →
          (ob_fill_trade m now ev).avg_price
              = ((ev.native_qty_received : ℚ) - (ev.native_fee_or_rebate : ℚ))
                  * 10 ^ m.base_decimals
                  / (10 ^ m.quote_decimals * (ev.native_qty_paid : ℚ))
            ∧ (ob_fill_trade m now ev).amount
                = (ev.native_qty_paid : ℚ) / 10 ^ m.base_decimals
            ∧ (ob_fill_trade m now ev).market_buy = 0)
      ∧ (ob_fill_trade m now ev).avg_price_lots
          = ((round_bankers ((ob_fill_trade m now ev).avg_price
              * 10 ^ m.quote_decimals * (m.base_lot_size : ℚ)
              / (10 ^ m.base_decimals * (m.quote_lot_size : ℚ))) : ℤ) : ℚ)
      ∧ (ob_fill_trade m now ev).amount_lots
          = (ob_fill_trade m now ev).amount * 10 ^ m.quote_decimals
              / (m.quote_lot_size : ℚ)
      ∧ (ob_fill_trade m now ev).order_id = some ev.order_id)
    ∧ (∀ (m : ObMarketInfo) (now : ℕ) (st : Finset ℕ × List MarketTrade)
        (evs : List ObEvent), ∀ t ∈ (ob_process_events m now st evs).2,
          t ∈ st.2 ∨ ∃ ev, ObEvent.fill ev ∈ evs ∧ ev.maker = true
            ∧ t = ob_fill_trade m now ev)
    ∧ ob_fill_trade ob_market_8a 0 ob_fill_8a
        = { slug := "ob", order_id := some 42, market_buy := 1,
            avg_price := 1001 / 500, amount := 1 / 2, timestamp := 0,
            blocktime := 0, avg_price_lots := 20, amount_lots := 50000 } := by
  refine ⟨?_, fun m now st evs => ob_process_events_origin m now evs st, ?_⟩
  · intro m now ev
    refine ⟨?_, ?_, ?_, ?_, ?_⟩
    · intro hside
      refine ⟨?_, ?_, ?_⟩
      · simp only [ob_fill_trade, ob_fill_price, price_before_fees, hside,
          token_factor]
        push_cast
        ring_nf
      · simp [ob_fill_trade, ob_fill_size, hside, token_factor]
      · simp [ob_fill_trade, hside]
    · intro hside hle
      refine ⟨?_, ?_, ?_⟩
      · simp only [ob_fill_trade, ob_fill_price, price_before_fees, hside,
          token_factor]
        rw [Nat.cast_sub hle]
      · simp [ob_fill_trade, ob_fill_size, hside, token_factor]
      · simp [ob_fill_trade, hside]
    · simp only [ob_fill_trade, ob_fill_price_lots, token_factor]
      rw [div_div]
    · simp [ob_fill_trade, ob_fill_size_lots, token_factor]
    · simp [ob_fill_trade]
  · simp only [ob_fill_trade, ob_fill_price, price_before_fees,
      ob_fill_price_lots, ob_fill_size, ob_fill_size_lots, token_factor,
      ob_market_8a, ob_fill_8a]
    norm_num [round_bankers, Int.floor_eq_iff]

/-- C1 witness: the general clauses of `claim_C1_ob_fill_derivation`
instantiated at the §8(a) inputs, with every hypothesis discharged
concretely; an event queue holding exactly the §8(a) fill emits exactly its
trade record. -/
theorem claim_C1_witness :
    ((ob_fill_trade ob_market_8a 0 ob_fill_8a).avg_price
        = ((1000000 : ℚ) + 1000) * 10 ^ 6 / (10 ^ 6 * 500000)
      ∧ (ob_fill_trade ob_market_8a 0 ob_fill_8a).amount
          = (500000 : ℚ) / 10 ^ 6
      ∧ (ob_fill_trade ob_market_8a 0 ob_fill_8a).market_buy = 1)
    ∧ (ob_fill_trade ob_market_8a 0 ob_fill_8a ∈ ([] : List MarketTrade)
        ∨ ∃ ev, ObEvent.fill ev ∈ [ObEvent.fill ob_fill_8a] ∧ ev.maker = true
            ∧ ob_fill_trade ob_market_8a 0 ob_fill_8a = ob_fill_trade ob_market_8a 0 ev) := by
  constructor
  · have h := (claim_C1_ob_fill_derivation.1 ob_market_8a 0 ob_fill_8a).1 rfl
    simpa [ob_market_8a, ob_fill_8a] using h
  · refine claim_C1_ob_fill_derivation.2.1 ob_market_8a 0 (∅, []) [ObEvent.fill ob_fill_8a]
      (ob_fill_trade ob_market_8a 0 ob_fill_8a) ?_
    simp [ob_process_events, ob_step, ob_fill_8a]

/-- C6: Within a run of the OB parser (arbitrary sequence of event-queue
updates, `filled_order_ids` starting empty), no two emitted trade records
share an `order_id`, every emitted record stems from a maker fill event of
the run, and one step of the event loop emits a trade for a fill event
exactly when `maker` holds and the order id is not yet in the per-run set —
in which case the order id is inserted; non-fill events change nothing. -/
theorem claim_C6_dedup_and_maker_only :
    (∀ (m : ObMarketInfo) (now : ℕ) (updates : List (List ObEvent)),
      ((ob_run m now updates).2.map MarketTrade.order_id).Nodup
      ∧ ∀ t ∈ (ob_run m now updates).2,
          ∃ ev, ObEvent.fill ev ∈ updates.flatten ∧ ev.maker = true
            ∧ t = ob_fill_trade m now ev ∧ t.order_id = some ev.order_id)
    ∧ (∀ (m : ObMarketInfo) (now : ℕ) (st : Finset ℕ × List MarketTrade)
        (ev : FillEvent),
        ob_step m now st (ObEvent.fill ev)
          = if ev.maker = true ∧ ev.order_id ∉ st.1
            then (insert ev.order_id st.1, st.2 ++ [ob_fill_trade m now ev])
            else st)
    ∧ (∀ (m : ObMarketInfo) (now : ℕ) (st : Finset ℕ × List MarketTrade),
        ob_step m now st ObEvent.other = st) := by
  refine ⟨?_, ob_step_fill_eq, fun _ _ _ => rfl⟩
  intro m now updates
  constructor
  · exact (ob_run_inv m now updates (∅, []) (by simp) (by simp)).1
  · intro t ht
    rcases ob_run_origin m now updates (∅, []) t ht with h | ⟨ev, ⟨evs, hevs, hin⟩, hmk, hteq⟩
    · simp at h
    · exact ⟨ev, List.mem_flatten.mpr ⟨evs, hevs, hin⟩, hmk, hteq,
        by rw [hteq]; rfl⟩

/-- C6 witness: a run consisting of one update that delivers the §8(a) fill
twice followed by a second update delivering it again — the clauses of
`claim_C6_dedup_and_maker_only` applied to it, with the membership
hypothesis discharged at the single emitted record. -/
theorem claim_C6_witness :
    (((ob_run ob_market_8a 0 [[ObEvent.fill ob_fill_8a, ObEvent.fill ob_fill_8a],
        [ObEvent.fill ob_fill_8a]]).2.map MarketTrade.order_id).Nodup)
    ∧ (∃ ev, ObEvent.fill ev
          ∈ [[ObEvent.fill ob_fill_8a, ObEvent.fill ob_fill_8a],
              [ObEvent.fill ob_fill_8a]].flatten
        ∧ ev.maker = true
        ∧ ob_fill_trade ob_market_8a 0 ob_fill_8a = ob_fill_trade ob_market_8a 0 ev
        ∧ (ob_fill_trade ob_market_8a 0 ob_fill_8a).order_id = some ev.order_id) := by
  constructor
  · exact ((claim_C6_dedup_and_maker_only.1 ob_market_8a 0
      [[ObEvent.fill ob_fill_8a, ObEvent.fill ob_fill_8a], [ObEvent.fill ob_fill_8a]]).1)
  · refine (claim_C6_dedup_and_maker_only.1 ob_market_8a 0
      [[ObEvent.fill ob_fill_8a, ObEvent.fill ob_fill_8a], [ObEvent.fill ob_fill_8a]]).2
      (ob_fill_trade ob_market_8a 0 ob_fill_8a) ?_
    simp [ob_run, ob_process_events, ob_step, ob_fill_8a]

/-- C2 counterexample: at the §8(b) inputs the emitted trade's price is `2`,
not the claimed `0.000002` — the source passes multiplier `0` to
`price_lots_to_number`, so the market's multiplier is never applied. -/
theorem claim_C2_counterexample :
    (gd_log_trade gd_market_8b true gd_log_8b 0).map MarketTrade.avg_price = some 2
    ∧ (2 : ℚ) ≠ 1 / 500000 := by
  constructor
  · simp only [gd_log_trade, price_lots_to_number, base_lots_to_number,
      token_factor, gd_market_8b, gd_log_8b]
    norm_num
  · norm_num

/-- C2 (amended): For every GD buy/sell order-log update with a nonzero
amount, the emitted trade has `price_lots = total_value_lamports / amount`
(exact decimal division), readable amount `amount / 10^base_decimals`,
`market_buy = 1` iff the buy log was updated, and `order_id = None`; the
readable price is computed by `price_lots_to_number` with multiplier `0`,
i.e. `price = price_lots · 10^base_decimals / 10^quote_decimals` (the
market's multiplier is not applied).  A zero-amount entry yields no trade.
At the §8(b) inputs: `price_lots = 0.002`, `price = 2`, `amount = 1`,
`market_buy = 1`. -/
theorem claim_C2_gd_fill_derivation :
    (∀ (gm : GdMarketInfo) (is_buy_log : Bool) (log : GdMarketOrderLog) (now : ℕ),
      log.amount ≠ 0 →
      ∃ t, gd_log_trade gm is_buy_log log now = some t
        ∧ t.avg_price_lots = (log.total_value_lamports : ℚ) / (log.amount : ℚ)
        ∧ t.avg_price = price_lots_to_number
            ((log.total_value_lamports : ℚ) / (log.amount : ℚ))
            gm.base_decimals gm.quote_decimals 0
        ∧ t.avg_price = (log.total_value_lamports : ℚ) / (log.amount : ℚ)
            * 10 ^ gm.base_decimals / 10 ^ gm.quote_decimals
        ∧ t.amount = (log.amount : ℚ) / 10 ^ gm.base_decimals
        ∧ t.market_buy = (if is_buy_log then 1 else 0)
        ∧ t.order_id = none)
    ∧ (∀ (gm : GdMarketInfo) (is_buy_log : Bool) (log : GdMarketOrderLog) (now : ℕ),
        log.amount = 0 → gd_log_trade gm is_buy_log log now = none)
    ∧ gd_log_trade gd_market_8b true gd_log_8b 0
        = some { slug := "gd", order_id := none, market_buy := 1,
                 avg_price := 2, amount := 1, timestamp := 0, blocktime := 0,
                 avg_price_lots := 1 / 500, amount_lots := 1000000000 } := by
  refine ⟨?_, ?_, ?_⟩
  · intro gm is_buy_log log now hne
    have h : gd_log_trade gm is_buy_log log now
        = some { slug := gm.name, order_id := none,
                 market_buy := if is_buy_log then 1 else 0,
                 avg_price := price_lots_to_number
                   ((log.total_value_lamports : ℚ) / (log.amount : ℚ))
                   gm.base_decimals gm.quote_decimals 0,
                 amount := base_lots_to_number log.amount gm.base_decimals,
                 timestamp := now, blocktime := now,
                 avg_price_lots := (log.total_value_lamports : ℚ) / (log.amount : ℚ),
                 amount_lots := (log.amount : ℚ) } := by
      simp [gd_log_trade, hne]
    refine ⟨_, h, rfl, rfl, ?_, ?_, rfl, rfl⟩
    · simp [price_lots_to_number, token_factor]
    · simp [base_lots_to_number, token_factor]
  · intro gm is_buy_log log now h0
    simp [gd_log_trade, h0]
  · simp only [gd_log_trade, price_lots_to_number, base_lots_to_number,
      token_factor, gd_market_8b, gd_log_8b]
    norm_num

/-- C2 witness: the general clause of `claim_C2_gd_fill_derivation`
instantiated at the §8(b) inputs (`amount ≠ 0` discharged by computation). -/
theorem claim_C2_witness :
    ∃ t, gd_log_trade gd_market_8b true gd_log_8b 0 = some t
      ∧ t.avg_price_lots = ((2000000 : ℚ)) / ((1000000000 : ℚ))
      ∧ t.avg_price = price_lots_to_number ((2000000 : ℚ) / (1000000000 : ℚ)) 9 6 0
      ∧ t.avg_price = (2000000 : ℚ) / (1000000000 : ℚ) * 10 ^ 9 / 10 ^ 6
      ∧ t.amount = (1000000000 : ℚ) / 10 ^ 9
      ∧ t.market_buy = (if true then 1 else 0)
      ∧ t.order_id = none := by
  have h := claim_C2_gd_fill_derivation.1 gd_market_8b true gd_log_8b 0 (by decide)
  simpa [gd_market_8b, gd_log_8b] using h

/-- C9 counterexample: starting from an empty cache list, a batch of 101
trades leaves 101 entries — `rpop` can remove at most what is in the list
before the push, so the ≤ 100 bound fails for batches larger than 100. -/
theorem claim_C9_counterexample :
    (update_recent_trades [] (List.replicate 101 td_unit)).length = 101
    ∧ ¬(update_recent_trades [] (List.replicate 101 td_unit)).length ≤ 100 := by
  have h : (update_recent_trades [] (List.replicate 101 td_unit)).length = 101 := by
    simp [update_recent_trades]
  exact ⟨h, by rw [h]; decide⟩

/-- C9 (amended): After a trade-batch fan-out with a batch of at most 100
trades, the `recent_trades` list has length `min (existing + batch) 100`,
the newest entry (the last trade of the batch) is at the head, and from 98
entries a batch of 5 leaves exactly the batch (reversed, at the head)
followed by the oldest-trimmed 95 entries — length 100.  (For batches of
more than 100 trades the bound fails, see the counterexample.) -/
theorem claim_C9_recent_trades_bound :
    ∀ (existing new_trades : List TradeData),
      new_trades.length ≤ 100 →
      (update_recent_trades existing new_trades).length
          = min (existing.length + new_trades.length) 100
      ∧ (update_recent_trades existing new_trades).length ≤ 100
      ∧ (new_trades ≠ [] →
          (update_recent_trades existing new_trades).head? = new_trades.getLast?)
      ∧ (existing.length = 98 → new_trades.length = 5 →
          update_recent_trades existing new_trades
              = new_trades.reverse ++ existing.take 95
          ∧ (update_recent_trades existing new_trades).length = 100) := by
  intro existing new_trades hle
  have hlen : (update_recent_trades existing new_trades).length
      = min (existing.length + new_trades.length) 100 := by
    simp only [update_recent_trades]
    split <;> rename_i h <;>
      simp only [List.length_append, List.length_reverse, List.length_take] at h ⊢ <;>
      omega
  refine ⟨hlen, by omega, ?_, ?_⟩
  · intro hne
    have hrev : new_trades.reverse ≠ [] := by simpa using hne
    rw [update_recent_trades, List.head?_append_of_ne_nil _ hrev,
      List.head?_reverse]
  · intro h98 h5
    constructor
    · simp only [update_recent_trades, List.length_append, h98, h5]
      rw [if_pos (by omega)]
    · rw [hlen, h98, h5]
      omega

/-- C9 witness: `claim_C9_recent_trades_bound` applied to 98 cached entries
and a batch of 5 (the batch-size hypothesis discharged by computation),
reproducing the §8(f) outcome. -/
theorem claim_C9_witness :
    (update_recent_trades (List.replicate 98 td_unit) (List.replicate 5 td_unit)).length
        = min ((List.replicate 98 td_unit).length + (List.replicate 5 td_unit).length) 100
    ∧ (update_recent_trades (List.replicate 98 td_unit) (List.replicate 5 td_unit)).length
        ≤ 100
    ∧ (List.replicate 5 td_unit ≠ [] →
        (update_recent_trades (List.replicate 98 td_unit) (List.replicate 5 td_unit)).head?
          = (List.replicate 5 td_unit).getLast?)
    ∧ ((List.replicate 98 td_unit).length = 98 → (List.replicate 5 td_unit).length = 5 →
        update_recent_trades (List.replicate 98 td_unit) (List.replicate 5 td_unit)
            = (List.replicate 5 td_unit).reverse ++ (List.replicate 98 td_unit).take 95
        ∧ (update_recent_trades (List.replicate 98 td_unit) (List.replicate 5 td_unit)).length
            = 100) := by
  exact claim_C9_recent_trades_bound (List.replicate 98 td_unit)
    (List.replicate 5 td_unit) (by simp)

theorem balances_loop_out_of_bounds (entries : List BalanceEntry) (bd qd max_users : ℕ)
    (hcap : entries.length < max_users) :
    ∀ (n uid : ℕ), entries.length - uid ≤ n → uid ≤ entries.length →
      balances_loop entries bd qd uid max_users = DecodeOutcome.panic := by
  intro n
  induction n with
  | zero =>
    intro uid h1 h2
    have huid : uid = entries.length := by omega
    rw [balances_loop, if_pos (by omega)]
    have : entries.get? uid = none := by
      rw [huid]
      simp [List.get?_eq_none]
    rw [this]
  | succ n ih =>
    intro uid h1 h2
    rcases Nat.lt_or_ge uid entries.length with hlt | hge
    · rw [balances_loop, if_pos (by omega)]
      have he : entries.get? uid = some (entries.get ⟨uid, hlt⟩) :=
        List.get?_eq_get hlt
      rw [he, ih (uid + 1) (by omega) (by omega)]
    · have huid : uid = entries.length := by omega
      rw [balances_loop, if_pos (by omega)]
      have : entries.get? uid = none := by
        rw [huid]
        simp [List.get?_eq_none]
      rw [this]

/-- C10: contrary to the claim, malformed payloads do not produce a
returned error — they panic, and since the subscription loop calls the
parsers inline with nothing catching the unwinding, the process aborts.
Witnessed at concrete failing inputs: a balances account whose `num_users`
equals the 10,000-entry capacity (the loop indexes `entries[10000]`, out of
bounds), a bids/asks account of 16 bytes (`Slab::new` underflows its
framing arithmetic / fails `checked_sub(...).unwrap()`), and an order-tree
account of 4 bytes (`&data[8..]` is out of range). -/
theorem claim_C10_decode_panics :
    parse_balances_account
        ⟨USERS_PER_MARKET, List.replicate USERS_PER_MARKET ⟨0, 0⟩⟩ 9 6
      = DecodeOutcome.panic
    ∧ slab_new_frame 16 = DecodeOutcome.panic
    ∧ parse_order_account_frame 4 = DecodeOutcome.panic := by
  refine ⟨?_, by decide, by decide⟩
  show balances_loop (List.replicate USERS_PER_MARKET ⟨0, 0⟩) 9 6 1 (USERS_PER_MARKET + 1)
      = DecodeOutcome.panic
  exact balances_loop_out_of_bounds (List.replicate USERS_PER_MARKET ⟨0, 0⟩) 9 6
    (USERS_PER_MARKET + 1)
    (by simp only [List.length_replicate]; omega)
    USERS_PER_MARKET 1
    (by simp only [List.length_replicate, USERS_PER_MARKET]; omega)
    (by simp only [List.length_replicate, USERS_PER_MARKET]; omega)

/-- C5: For every GD bids/asks account update, the set of uids receiving a
pub/sub event equals the symmetric difference of the prior and current uid
sets plus the uids present in both whose order list changed (element-wise,
order-preserving); every uid present in the prior map but absent from the
current one receives the empty-list (cancellation) event; and the prior map
is replaced by the current map.  On the §8(d) example (prev `{1:[A],2:[B]}`,
current `{1:[A,C],3:[D]}`) events go to uids 1, 2, 3, with uid 2 the empty
event and uids 1, 3 carrying the non-empty lists `[A,C]` and `[D]`. -/
theorem claim_C5_gd_reconciliation :
    (∀ (prev : UidMap) (xs : List GdMarketOrder),
      (gd_reconcile prev xs).published_uids
          = symmDiff prev.keys (order_uids xs)
            ∪ (prev.keys ∩ order_uids xs).filter
                (fun u => prev.get u ≠ bucket_orders xs u)
      ∧ (gd_reconcile prev xs).empty_event_uids = prev.keys \ order_uids xs
      ∧ (gd_reconcile prev xs).new_prev = ⟨order_uids xs, bucket_orders xs⟩)
    ∧ ((gd_reconcile prev_8d cur_8d).published_uids = {1, 2, 3}
      ∧ (gd_reconcile prev_8d cur_8d).empty_event_uids = {2}
      ∧ bucket_orders cur_8d 1 = [gd_order_A, gd_order_C]
      ∧ bucket_orders cur_8d 3 = [gd_order_D]) := by
  constructor
  · intro prev xs
    refine ⟨?_, ?_, rfl⟩
    · ext u
      simp only [gd_reconcile, Finset.mem_union, Finset.mem_filter,
        Finset.mem_symmDiff, Finset.mem_inter, Finset.mem_sdiff, UidMap.lookup]
      by_cases hP : u ∈ prev.keys <;> by_cases hC : u ∈ order_uids xs <;>
        simp [hP, hC]
    · ext u
      simp only [gd_reconcile, Finset.mem_filter, Finset.mem_sdiff]
  · refine ⟨by decide, by decide, by decide, by decide⟩

theorem candle_step_create (db : List CandleData) (slug unit : String)
    (delta bt : ℕ) (t : MarketTrade) :
    candle_step db slug unit delta bt [] t
      = [(bt / delta * delta,
          ⟨resolve_open db slug unit (bt / delta * delta) t.avg_price,
           t.avg_price, t.avg_price, t.avg_price, t.amount,
           bt / delta * delta, bt / delta * delta + delta, unit, t.slug⟩)] := by
  cases h : latest_candle_before db slug unit (bt / delta * delta) <;>
    simp [candle_step, resolve_open, prior_close_in_batch, h, List.lookup]

theorem candle_step_merge (db : List CandleData) (slug unit : String)
    (delta bt : ℕ) (c : CandleData) (t : MarketTrade) :
    candle_step db slug unit delta bt [(bt / delta * delta, c)] t
      = [(bt / delta * delta, candle_upd c t)] := by
  simp [candle_step, List.lookup, candle_upd]

theorem candles_fold_single (db : List CandleData) (slug unit : String)
    (delta bt : ℕ) :
    ∀ (ts : List MarketTrade) (c : CandleData),
      ts.foldl (candle_step db slug unit delta bt) [(bt / delta * delta, c)]
        = [(bt / delta * delta, ts.foldl candle_upd c)] := by
  intro ts
  induction ts with
  | nil => intro c; rfl
  | cons t ts ih =>
    intro c
    rw [List.foldl_cons, candle_step_merge, List.foldl_cons]
    exact ih _

theorem insert_candles_shape (db : List CandleData) (t0 : MarketTrade)
    (ts : List MarketTrade) (unit : String) :
    insert_candles db (t0 :: ts) unit
      = some [ts.foldl candle_upd
          ⟨resolve_open db t0.slug unit
             (t0.blocktime / unit_seconds unit * unit_seconds unit) t0.avg_price,
           t0.avg_price, t0.avg_price, t0.avg_price, t0.amount,
           t0.blocktime / unit_seconds unit * unit_seconds unit,
           t0.blocktime / unit_seconds unit * unit_seconds unit + unit_seconds unit,
           unit, t0.slug⟩] := by
  rw [insert_candles, List.foldl_cons, candle_step_create,
    candles_fold_single]
  rfl

theorem fold_upd_open (ts : List MarketTrade) :
    ∀ c : CandleData, (ts.foldl candle_upd c).open_ = c.open_ := by
  induction ts with
  | nil => intro c; rfl
  | cons t ts ih => intro c; rw [List.foldl_cons, ih]; rfl

theorem fold_upd_amount (ts : List MarketTrade) :
    ∀ c : CandleData,
      (ts.foldl candle_upd c).amount = c.amount + (ts.map MarketTrade.amount).sum := by
  induction ts with
  | nil => intro c; simp
  | cons t ts ih =>
    intro c
    rw [List.foldl_cons, ih]
    simp [candle_upd]
    ring

theorem fold_upd_low_le (ts : List MarketTrade) :
    ∀ c : CandleData, (ts.foldl candle_upd c).low ≤ c.low := by
  induction ts with
  | nil => intro c; exact le_refl _
  | cons t ts ih =>
    intro c
    rw [List.foldl_cons]
    exact le_trans (ih _) (min_le_left _ _)

theorem fold_upd_high_ge (ts : List MarketTrade) :
    ∀ c : CandleData, c.high ≤ (ts.foldl candle_upd c).high := by
  induction ts with
  | nil => intro c; exact le_refl _
  | cons t ts ih =>
    intro c
    rw [List.foldl_cons]
    exact le_trans (le_max_left _ _) (ih _)

theorem fold_upd_close_bounds (ts : List MarketTrade) :
    ∀ c : CandleData, c.low ≤ c.close → c.close ≤ c.high →
      (ts.foldl candle_upd c).low ≤ (ts.foldl candle_upd c).close
        ∧ (ts.foldl candle_upd c).close ≤ (ts.foldl candle_upd c).high := by
  induction ts with
  | nil => intro c h1 h2; exact ⟨h1, h2⟩
  | cons t ts ih =>
    intro c h1 h2
    rw [List.foldl_cons]
    exact ih (candle_upd c t) (min_le_right _ _) (le_max_right _ _)

/-- C7 counterexample: a persisted candle row for `(m, 1m)` with `begin_ts`
strictly before the bucket exists, but its close is `0.0` — the source's
`open_price == 0.0` sentinel treats it as absent and uses the first trade's
price `10` instead of the row's close `0`. -/
theorem claim_C7_counterexample :
    latest_candle_before [db_row_close0] "m" "1m" 60 = some db_row_close0
    ∧ insert_candles [db_row_close0] [trade_t60] "1m"
        = some [⟨10, 10, 10, 10, 1, 60, 120, "1m", "m"⟩]
    ∧ db_row_close0.close = 0
    ∧ (10 : ℚ) ≠ 0 := by
  refine ⟨by simp [latest_candle_before, db_row_close0], ?_, rfl, by norm_num⟩
  simp only [insert_candles, candle_step, unit_seconds, latest_candle_before,
    prior_close_in_batch, List.foldl, List.filter, db_row_close0, trade_t60]
  norm_num [List.lookup]

/-- C7 (amended): For every candle bucket created by `insert_candles`, the
open is the close of the most recent persisted candle for `(slug, unit)`
with `begin_ts` strictly before the bucket's, when such a row exists AND its
close is nonzero (the source's `0.0` sentinel treats a zero close as
absent); otherwise the first trade's price.  The in-batch prior-close clause
is vacuous: every trade of a batch is bucketed by the FIRST trade's
blocktime, so a prior in-batch bucket with lower `begin_ts` never exists. -/
theorem claim_C7_candle_open_carry :
    ∀ (db : List CandleData) (trades : List MarketTrade) (unit : String)
      (cs : List CandleData) (t0 : MarketTrade),
      insert_candles db trades unit = some cs → trades.head? = some t0 →
      ∀ c ∈ cs,
        c.open_ = resolve_open db t0.slug unit
          (t0.blocktime / unit_seconds unit * unit_seconds unit) t0.avg_price := by
  intro db trades unit cs t0 hins hhead c hc
  cases trades with
  | nil => simp [insert_candles] at hins
  | cons t1 ts =>
    have ht0 : t1 = t0 := by simpa using hhead
    subst ht0
    rw [insert_candles_shape] at hins
    have hcs : cs = [ts.foldl candle_upd
        ⟨resolve_open db t1.slug unit
           (t1.blocktime / unit_seconds unit * unit_seconds unit) t1.avg_price,
         t1.avg_price, t1.avg_price, t1.avg_price, t1.amount,
         t1.blocktime / unit_seconds unit * unit_seconds unit,
         t1.blocktime / unit_seconds unit * unit_seconds unit + unit_seconds unit,
         unit, t1.slug⟩] := by
      exact (Option.some.injEq _ _).mp hins.symm
    subst hcs
    have hc' := List.mem_singleton.mp hc
    subst hc'
    rw [fold_upd_open]

/-- C7 witness: `claim_C7_candle_open_carry` applied to an empty candle
table and the single §8(e) first trade, hypotheses discharged by
computation: the bucket's open is `resolve_open` of the first trade. -/
theorem claim_C7_witness :
    (⟨10, 10, 10, 10, 1, 60, 120, "1m", "m"⟩ : CandleData).open_
      = resolve_open [] trade_t60.slug "1m"
          (trade_t60.blocktime / unit_seconds "1m" * unit_seconds "1m")
          trade_t60.avg_price := by
  refine claim_C7_candle_open_carry [] [trade_t60] "1m"
    [⟨10, 10, 10, 10, 1, 60, 120, "1m", "m"⟩] trade_t60 ?_ rfl
    ⟨10, 10, 10, 10, 1, 60, 120, "1m", "m"⟩ (by simp)
  simp only [insert_candles, candle_step, unit_seconds, latest_candle_before,
    prior_close_in_batch, List.foldl, List.filter, trade_t60]
  norm_num [List.lookup]

/-- C8 counterexample: with a persisted prior candle of close `20`, a bucket
containing exactly one trade (price 10) has `open = 20 ≠ 10 = close`, and
`open > high` — the claimed `open == close` for singleton buckets and
`low ≤ open ≤ high` fail whenever the open carries a prior close. -/
theorem claim_C8_counterexample :
    insert_candles [db_row_close20] [trade_t60] "1m"
        = some [⟨20, 10, 10, 10, 1, 60, 120, "1m", "m"⟩]
    ∧ [trade_t60].length = 1
    ∧ (20 : ℚ) ≠ 10
    ∧ ¬((20 : ℚ) ≤ 10) := by
  refine ⟨?_, rfl, by norm_num, by norm_num⟩
  simp only [insert_candles, candle_step, unit_seconds, latest_candle_before,
    prior_close_in_batch, List.foldl, List.filter, db_row_close20, trade_t60]
  norm_num [List.lookup]

/-- C8 (amended): Every candle produced by `insert_candles` satisfies
`low ≤ close ≤ high`, and its amount is the sum of the amounts of ALL
trades of the batch (they share one bucket, keyed by the first trade's
blocktime).  When no prior close is carried (the resolved open falls back
to the first trade's price — no persisted row, or a zero close):
`open = first price`, `low ≤ open ≤ high`, and `open == close` when the
batch holds exactly one trade.  The §8(e) trades (prices 10, 12, 9 at
t = 60, 61, 62, unit 1m, no prior candle) give the bucket
`begin_ts = 60`: `open = 10, high = 12, low = 9, close = 9,
amount = 1 + 2 + 3`. -/
theorem claim_C8_candle_ohlc :
    (∀ (db : List CandleData) (trades : List MarketTrade) (unit : String)
      (cs : List CandleData) (t0 : MarketTrade),
      insert_candles db trades unit = some cs → trades.head? = some t0 →
      ∀ c ∈ cs,
        (c.low ≤ c.close ∧ c.close ≤ c.high)
        ∧ c.amount = (trades.map MarketTrade.amount).sum
        ∧ (resolve_open db t0.slug unit
              (t0.blocktime / unit_seconds unit * unit_seconds unit) t0.avg_price
            = t0.avg_price →
          c.open_ = t0.avg_price
          ∧ c.low ≤ c.open_ ∧ c.open_ ≤ c.high
          ∧ (trades.length = 1 → c.open_ = c.close)))
    ∧ insert_candles [] [trade_t60, trade_t61, trade_t62] "1m"
        = some [⟨10, 12, 9, 9, 6, 60, 120, "1m", "m"⟩] := by
  constructor
  · intro db trades unit cs t0 hins hhead c hc
    cases trades with
    | nil => simp [insert_candles] at hins
    | cons t1 ts =>
      have ht0 : t1 = t0 := by simpa using hhead
      subst ht0
      rw [insert_candles_shape] at hins
      have hcs : cs = [ts.foldl candle_upd
          ⟨resolve_open db t1.slug unit
             (t1.blocktime / unit_seconds unit * unit_seconds unit) t1.avg_price,
           t1.avg_price, t1.avg_price, t1.avg_price, t1.amount,
           t1.blocktime / unit_seconds unit * unit_seconds unit,
           t1.blocktime / unit_seconds unit * unit_seconds unit + unit_seconds unit,
           unit, t1.slug⟩] := by
        exact (Option.some.injEq _ _).mp hins.symm
      subst hcs
      have hc' := List.mem_singleton.mp hc
      subst hc'
      refine ⟨fold_upd_close_bounds ts _ (le_refl _) (le_refl _), ?_, ?_⟩
      · rw [fold_upd_amount]
        simp only [List.map_cons, List.sum_cons]
      · intro hres
        rw [fold_upd_open]
        simp only
        rw [hres]
        refine ⟨rfl, ?_, ?_, ?_⟩
        · exact le_trans (fold_upd_low_le ts _) (le_refl _)
        · exact le_trans (le_refl _) (fold_upd_high_ge ts _)
        · intro hlen
          have hts : ts = [] := by
            simpa using hlen
          subst hts
          simp
  · simp only [insert_candles, candle_step, unit_seconds, latest_candle_before,
      prior_close_in_batch, List.foldl, List.filter, trade_t60, trade_t61, trade_t62]
    norm_num [List.lookup]

/-- C8 witness: `claim_C8_candle_ohlc` applied to the §8(e) batch with an
empty candle table, all hypotheses discharged by computation on the
resulting bucket. -/
theorem claim_C8_witness :
    ((⟨10, 12, 9, 9, 6, 60, 120, "1m", "m"⟩ : CandleData).low
        ≤ (⟨10, 12, 9, 9, 6, 60, 120, "1m", "m"⟩ : CandleData).close
      ∧ (⟨10, 12, 9, 9, 6, 60, 120, "1m", "m"⟩ : CandleData).close
        ≤ (⟨10, 12, 9, 9, 6, 60, 120, "1m", "m"⟩ : CandleData).high)
    ∧ (⟨10, 12, 9, 9, 6, 60, 120, "1m", "m"⟩ : CandleData).amount
        = ([trade_t60, trade_t61, trade_t62].map MarketTrade.amount).sum
    ∧ (resolve_open [] trade_t60.slug "1m"
          (trade_t60.blocktime / unit_seconds "1m" * unit_seconds "1m")
          trade_t60.avg_price
        = trade_t60.avg_price →
      (⟨10, 12, 9, 9, 6, 60, 120, "1m", "m"⟩ : CandleData).open_ = trade_t60.avg_price
      ∧ (⟨10, 12, 9, 9, 6, 60, 120, "1m", "m"⟩ : CandleData).low
          ≤ (⟨10, 12, 9, 9, 6, 60, 120, "1m", "m"⟩ : CandleData).open_
      ∧ (⟨10, 12, 9, 9, 6, 60, 120, "1m", "m"⟩ : CandleData).open_
          ≤ (⟨10, 12, 9, 9, 6, 60, 120, "1m", "m"⟩ : CandleData).high
      ∧ ([trade_t60, trade_t61, trade_t62].length = 1 →
          (⟨10, 12, 9, 9, 6, 60, 120, "1m", "m"⟩ : CandleData).open_
            = (⟨10, 12, 9, 9, 6, 60, 120, "1m", "m"⟩ : CandleData).close)) := by
  exact claim_C8_candle_ohlc.1 [] [trade_t60, trade_t61, trade_t62] "1m"
    [⟨10, 12, 9, 9, 6, 60, 120, "1m", "m"⟩] trade_t60
    claim_C8_candle_ohlc.2 rfl
    ⟨10, 12, 9, 9, 6, 60, 120, "1m", "m"⟩ (by simp)

theorem sum_at_price_cons (p : ℕ) (x : ℕ × ℕ) (xs : List (ℕ × ℕ)) :
    sum_at_price p (x :: xs) = (if x.1 = p then x.2 else 0) + sum_at_price p xs := by
  by_cases h : x.1 = p <;> simp [sum_at_price, List.filter_cons, h]

theorem sum_at_price_eq_zero (p : ℕ) (xs : List (ℕ × ℕ))
    (h : ∀ x ∈ xs, x.1 ≠ p) : sum_at_price p xs = 0 := by
  have hf : xs.filter (fun x => x.1 == p) = [] := by
    rw [List.filter_eq_nil_iff]
    intro x hx
    simpa using h x hx
  simp [sum_at_price, hf]

theorem sum_at_price_self (acc : List (ℕ × ℕ))
    (hnd : acc.Pairwise (fun a b => a.1 ≠ b.1)) :
    ∀ l ∈ acc, sum_at_price l.1 acc = l.2 := by
  induction acc with
  | nil => intro l hl; simp at hl
  | cons a rest ih =>
    intro l hl
    rw [List.pairwise_cons] at hnd
    rcases List.mem_cons.mp hl with h | h
    · subst h
      rw [sum_at_price_cons, if_pos rfl,
        sum_at_price_eq_zero _ _ (fun x hx => (hnd.1 x hx).symm)]
      omega
    · rw [sum_at_price_cons, if_neg (hnd.1 l h), ih hnd.2 l h]
      omega

theorem sum_at_price_cons_mk (pr a b : ℕ) (xs : List (ℕ × ℕ)) :
    sum_at_price pr ((a, b) :: xs) = (if a = pr then b else 0) + sum_at_price pr xs :=
  sum_at_price_cons pr (a, b) xs

theorem agg_levels_spec (R : ℕ → ℕ → Prop) (htr : Transitive R)
    (hir : Irreflexive R) (depth : ℕ) :
    ∀ (xs acc : List (ℕ × ℕ)),
      acc.Pairwise (fun a b => R b.1 a.1) →
      acc.length ≤ depth →
      xs.Pairwise (fun a b => a.1 = b.1 ∨ R a.1 b.1) →
      (∀ y ∈ xs, acc_rel R acc y) →
      (agg_levels depth xs acc).length ≤ depth
      ∧ (agg_levels depth xs acc).Pairwise (fun a b => R a.1 b.1)
      ∧ ∀ l ∈ agg_levels depth xs acc,
          l.2 = sum_at_price l.1 acc + sum_at_price l.1 xs := by
  intro xs
  induction xs with
  | nil =>
    intro acc hacc hlen hxs hcross
    have hnd : acc.Pairwise (fun a b => a.1 ≠ b.1) := by
      refine hacc.imp ?_
      intro a b hr he
      exact hir b.1 (he ▸ hr)
    refine ⟨by simpa [agg_levels] using hlen, ?_, ?_⟩
    · simpa [agg_levels, List.pairwise_reverse] using hacc
    · intro l hl
      have hl' : l ∈ acc := by simpa [agg_levels] using hl
      rw [sum_at_price_self acc hnd l hl']
      simp [sum_at_price]
  | cons y xs ih =>
    intro acc hacc hlen hxs hcross
    rw [List.pairwise_cons] at hxs
    rcases acc with _ | ⟨⟨p, q⟩, rest⟩
    · by_cases hd : (0 : ℕ) = depth
      · simp only [agg_levels, List.length_nil, hd, if_pos rfl]
        refine ⟨by simp, by simp, by simp⟩
      · have hstep := ih [y] (by simp) (by simp; omega) hxs.2 ?_
        · simp only [agg_levels, List.length_nil, if_neg hd]
          refine ⟨hstep.1, hstep.2.1, ?_⟩
          intro l hl
          have e1 : sum_at_price l.1 [y] = (if y.1 = l.1 then y.2 else 0) := by
            rw [sum_at_price_cons]
            simp [sum_at_price]
          have e2 : sum_at_price l.1 (y :: xs)
              = (if y.1 = l.1 then y.2 else 0) + sum_at_price l.1 xs :=
            sum_at_price_cons _ _ _
          rw [hstep.2.2 l hl, e1, e2]
          simp [sum_at_price]
        · intro z hz
          exact ⟨(hxs.1 z hz).imp_left Eq.symm, by simp⟩
    · have hcy := hcross y (List.mem_cons_self y xs)
      have hcy1 : y.1 = p ∨ R p y.1 := hcy.1
      have hcyrest : ∀ b ∈ rest, R b.1 y.1 := hcy.2
      rw [List.pairwise_cons] at hacc
      by_cases hpy : p = y.1
      · have hacc2 : ((p, q + y.2) :: rest).Pairwise (fun a b => R b.1 a.1) :=
          List.pairwise_cons.mpr ⟨fun b hb => hacc.1 b hb, hacc.2⟩
      
        have hcross2 : ∀ z ∈ xs, acc_rel R ((p, q + y.2) :: rest) z := by
          intro z hz
          refine ⟨?_, ?_⟩
          · rcases hxs.1 z hz with he | hr
            · exact Or.inl (he.symm.trans hpy.symm)
            · exact Or.inr (hpy.symm ▸ hr)
          · intro b hb
            rcases hxs.1 z hz with he | hr
            · exact he ▸ hcyrest b hb
            · exact htr (hcyrest b hb) hr
        have hstep := ih ((p, q + y.2) :: rest) hacc2 (by simpa using hlen)
          hxs.2 hcross2
        simp only [agg_levels, if_pos hpy]
        refine ⟨hstep.1, hstep.2.1, ?_⟩
        intro l hl
        have h1 := hstep.2.2 l hl
        rw [sum_at_price_cons_mk] at h1
        rw [sum_at_price_cons_mk, sum_at_price_cons]
        by_cases hpl : p = l.1
        · have hyl : y.1 = l.1 := hpy.symm.trans hpl
          simp only [if_pos hpl, if_pos hyl] at h1 ⊢
          omega
        · have hyl : ¬(y.1 = l.1) := fun h => hpl (hpy.trans h)
          simp only [if_neg hpl, if_neg hyl] at h1 ⊢
          omega
      · have hRy : R p y.1 := by
          rcases hcy1 with he | hr
          · exact absurd he.symm hpy
          · exact hr
        have hz2 : ∀ z ∈ y :: xs, z.1 = y.1 ∨ R y.1 z.1 := by
          intro z hz
          rcases List.mem_cons.mp hz with he | hm
          · exact Or.inl (by rw [he])
          · exact (hxs.1 z hm).imp_left Eq.symm
        have hPz : ∀ z : ℕ × ℕ, (z.1 = y.1 ∨ R y.1 z.1) → R p z.1 := by
          intro z h
          rcases h with he | hr
          · exact he.symm ▸ hRy
          · exact htr hRy hr
        have hBz : ∀ b ∈ rest, ∀ z : ℕ × ℕ, (z.1 = y.1 ∨ R y.1 z.1) → R b.1 z.1 := by
          intro b hb z h
          rcases h with he | hr
          · exact he.symm ▸ hcyrest b hb
          · exact htr (hcyrest b hb) hr
        by_cases hdep : ((p, q) :: rest).length = depth
        · simp only [agg_levels, if_neg hpy, if_pos hdep]
          have hnd : ((p, q) :: rest).Pairwise (fun a b => a.1 ≠ b.1) := by
            refine (List.pairwise_cons.mpr ⟨hacc.1, hacc.2⟩).imp ?_
            intro a b hr he
            exact hir b.1 (he ▸ hr)
          refine ⟨by rw [List.length_reverse, hdep], ?_, ?_⟩
          · rw [List.pairwise_reverse]
            exact List.pairwise_cons.mpr ⟨hacc.1, hacc.2⟩
          · intro l hl
            have hl' : l ∈ (p, q) :: rest := List.mem_reverse.mp hl
            have hzero : sum_at_price l.1 (y :: xs) = 0 := by
              refine sum_at_price_eq_zero _ _ ?_
              intro z hz
              have h2 := hz2 z hz
              rcases List.mem_cons.mp hl' with hel | hml
              · have hrp : R p z.1 := hPz z h2
                intro hzl
                rw [hel] at hzl
                exact hir _ (hzl ▸ hrp)
              · have hrl : R l.1 z.1 := hBz l hml z h2
                intro hzl
                exact hir _ (hzl ▸ hrl)
            rw [hzero, sum_at_price_self _ hnd l hl']
            omega
        · simp only [agg_levels, if_neg hpy, if_neg hdep]
          have hacc2 : (y :: (p, q) :: rest).Pairwise (fun a b => R b.1 a.1) := by
            refine List.pairwise_cons.mpr ⟨?_, List.pairwise_cons.mpr ⟨hacc.1, hacc.2⟩⟩
            intro b hb
            rcases List.mem_cons.mp hb with he | hm
            · rw [he]
              exact hRy
            · exact hcyrest b hm
          have hlen2 : (y :: (p, q) :: rest).length ≤ depth := by
            have hlt : ((p, q) :: rest).length < depth := by
              rcases Nat.lt_or_ge ((p, q) :: rest).length depth with h | h
              · exact h
              · exact absurd (Nat.le_antisymm hlen h) hdep
            simpa using hlt
          have hcross2 : ∀ z ∈ xs, acc_rel R (y :: (p, q) :: rest) z := by
            intro z hz
            refine ⟨(hxs.1 z hz).imp_left Eq.symm, ?_⟩
            intro b hb
            rcases List.mem_cons.mp hb with he | hm
            · rw [he]
              exact hPz z ((hxs.1 z hz).imp_left Eq.symm)
            · exact hBz b hm z ((hxs.1 z hz).imp_left Eq.symm)
          have hstep := ih (y :: (p, q) :: rest) hacc2 hlen2 hxs.2 hcross2
          refine ⟨hstep.1, hstep.2.1, ?_⟩
          intro l hl
          have h1 := hstep.2.2 l hl
          rw [sum_at_price_cons, sum_at_price_cons_mk] at h1
          rw [sum_at_price_cons_mk, sum_at_price_cons]
          omega

theorem agg_levels_top (R : ℕ → ℕ → Prop) (htr : Transitive R)
    (hir : Irreflexive R) (depth : ℕ) (input : List (ℕ × ℕ))
    (hsorted : input.Pairwise (fun a b => a.1 = b.1 ∨ R a.1 b.1)) :
    (agg_levels depth input []).length ≤ depth
    ∧ (agg_levels depth input []).Pairwise (fun a b => R a.1 b.1)
    ∧ (agg_levels depth input []).Pairwise (fun a b => a.1 ≠ b.1)
    ∧ ∀ l ∈ agg_levels depth input [], l.2 = sum_at_price l.1 input := by
  have h := agg_levels_spec R htr hir depth input [] (by simp) (by simp)
    hsorted (fun y hy => trivial)
  have hnd : (agg_levels depth input []).Pairwise (fun a b => a.1 ≠ b.1) := by
    refine h.2.1.imp ?_
    intro a b hr he
    exact hir b.1 (he ▸ hr)
  refine ⟨h.1, h.2.1, hnd, ?_⟩
  intro l hl
  have h2 := h.2.2 l hl
  simpa [sum_at_price] using h2

theorem sum_at_price_perm (p : ℕ) {l l' : List (ℕ × ℕ)} (h : l.Perm l') :
    sum_at_price p l = sum_at_price p l' := by
  unfold sum_at_price
  exact ((h.filter _).map _).sum_eq

theorem map_levels_props (aggout input : List (ℕ × ℕ)) (R : ℕ → ℕ → Prop)
    (F : ℕ × ℕ → MarketOrder)
    (hF1 : ∀ x, (F x).price_lots = x.1) (hF2 : ∀ x, (F x).size_lots = x.2)
    (h1 : aggout.length ≤ 20)
    (h2 : aggout.Pairwise (fun a b => R a.1 b.1))
    (h3 : aggout.Pairwise (fun a b => a.1 ≠ b.1))
    (h4 : ∀ l ∈ aggout, l.2 = sum_at_price l.1 input) :
    (aggout.map F).length ≤ 20
    ∧ ((aggout.map F).map MarketOrder.price_lots).Nodup
    ∧ (aggout.map F).Pairwise (fun a b => R a.price_lots b.price_lots)
    ∧ ∀ o ∈ aggout.map F, o.size_lots = sum_at_price o.price_lots input := by
  refine ⟨by simpa using h1, ?_, ?_, ?_⟩
  · rw [List.map_map]
    exact List.pairwise_map.mpr (h3.imp (fun {a b} h => by
      simpa [Function.comp, hF1] using h))
  · exact List.pairwise_map.mpr (h2.imp (fun {a b} h => by
      simpa [hF1] using h))
  · intro o ho
    obtain ⟨x, hx, rfl⟩ := List.mem_map.mp ho
    rw [hF1, hF2]
    exact h4 x hx

theorem mergeSort_price_lots_sorted (orders : List GdMarketOrder) :
    (orders.mergeSort (fun a b => decide (a.price_lots ≤ b.price_lots))).Pairwise
      (fun a b => a.price_lots ≤ b.price_lots) := by
  have h := @List.sorted_mergeSort GdMarketOrder
    (fun a b : GdMarketOrder => decide (a.price_lots ≤ b.price_lots))
    (fun a b c hab hbc => decide_eq_true
      (le_trans (of_decide_eq_true hab) (of_decide_eq_true hbc)))
    (fun a b => by
      rcases Nat.le_total a.price_lots b.price_lots with h | h <;> simp [h])
    orders
  exact h.imp (fun hd => of_decide_eq_true hd)

theorem construct_levels_props (leaves : List LeafNode) (m : ObMarketInfo)
    (R : ℕ → ℕ → Prop) (htr : Transitive R) (hir : Irreflexive R)
    (hs : leaves.Pairwise (fun a b => a.price = b.price ∨ R a.price b.price)) :
    (construct_levels leaves m 20).length ≤ 20
    ∧ ((construct_levels leaves m 20).map MarketOrder.price_lots).Nodup
    ∧ (construct_levels leaves m 20).Pairwise
        (fun a b => R a.price_lots b.price_lots)
    ∧ ∀ o ∈ construct_levels leaves m 20,
        o.size_lots = sum_at_price o.price_lots
          (leaves.map (fun x => (x.price, x.quantity))) := by
  have hsorted : (leaves.map (fun x => (x.price, x.quantity))).Pairwise
      (fun a b => a.1 = b.1 ∨ R a.1 b.1) := List.pairwise_map.mpr hs
  have htop := agg_levels_top R htr hir 20 _ hsorted
  have hmap := map_levels_props _ _ R
    (fun x => { price := readable_price x.1 m, amount := readable_quantity x.2 m,
                price_lots := x.1, size_lots := x.2 })
    (fun x => rfl) (fun x => rfl) htop.1 htop.2.1 htop.2.2.1 htop.2.2.2
  simpa only [construct_levels] using hmap

theorem sort_orders_props (orders : List GdMarketOrder) (gm : GdMarketInfo)
    (is_bid : Bool) :
    (sort_orders orders gm 20 is_bid).length ≤ 20
    ∧ ((sort_orders orders gm 20 is_bid).map MarketOrder.price_lots).Nodup
    ∧ (sort_orders orders gm 20 is_bid).Pairwise
        (fun a b => if is_bid then b.price_lots < a.price_lots
          else a.price_lots < b.price_lots)
    ∧ ∀ o ∈ sort_orders orders gm 20 is_bid,
        o.size_lots = sum_at_price o.price_lots
          (orders.map (fun x => (x.price_lots, x.amount_lots))) := by
  have hsort := mergeSort_price_lots_sorted orders
  cases is_bid with
  | false =>
    have hsorted : ((orders.mergeSort
        (fun a b => decide (a.price_lots ≤ b.price_lots))).map
          (fun x => (x.price_lots, x.amount_lots))).Pairwise
        (fun a b => a.1 = b.1 ∨ a.1 < b.1) := by
      refine List.pairwise_map.mpr (hsort.imp ?_)
      intro a b h
      exact Nat.eq_or_lt_of_le h
    have htop := agg_levels_top (fun a b => a < b)
      (fun a b c h1 h2 => lt_trans h1 h2) (fun a => lt_irrefl a) 20 _ hsorted
    have hmap := map_levels_props _ _ (fun a b => a < b)
      (fun x => { price_lots := x.1, size_lots := x.2,
                  price := price_lots_to_number (x.1 : ℚ) gm.base_decimals
                    gm.quote_decimals gm.multiplier,
                  amount := base_lots_to_number x.2 gm.base_decimals })
      (fun x => rfl) (fun x => rfl) htop.1 htop.2.1 htop.2.2.1 htop.2.2.2
    have hperm : ((orders.mergeSort
        (fun a b => decide (a.price_lots ≤ b.price_lots))).map
          (fun x => (x.price_lots, x.amount_lots))).Perm
        (orders.map (fun x => (x.price_lots, x.amount_lots))) :=
      (List.mergeSort_perm orders _).map _
    refine ⟨?_, ?_, ?_, ?_⟩
    · simpa only [sort_orders, if_neg (by decide : ¬(false = true))] using hmap.1
    · simpa only [sort_orders, if_neg (by decide : ¬(false = true))] using hmap.2.1
    · simpa only [sort_orders, if_neg (by decide : ¬(false = true))] using hmap.2.2.1
    · intro o ho
      have ho' := hmap.2.2.2 o
        (by simpa only [sort_orders, if_neg (by decide : ¬(false = true))] using ho)
      rw [ho', sum_at_price_perm o.price_lots hperm]
  | true =>
    have hrev : (orders.mergeSort
        (fun a b => decide (a.price_lots ≤ b.price_lots))).reverse.Pairwise
        (fun a b => b.price_lots ≤ a.price_lots) :=
      List.pairwise_reverse.mpr hsort
    have hsorted : (((orders.mergeSort
        (fun a b => decide (a.price_lots ≤ b.price_lots))).reverse).map
          (fun x => (x.price_lots, x.amount_lots))).Pairwise
        (fun a b => a.1 = b.1 ∨ b.1 < a.1) := by
      refine List.pairwise_map.mpr (hrev.imp ?_)
      intro a b h
      rcases Nat.eq_or_lt_of_le h with he | hl
      · exact Or.inl he.symm
      · exact Or.inr hl
    have htop := agg_levels_top (fun a b => b < a)
      (fun a b c h1 h2 => lt_trans h2 h1) (fun a => lt_irrefl a) 20 _ hsorted
    have hmap := map_levels_props _ _ (fun a b => b < a)
      (fun x => { price_lots := x.1, size_lots := x.2,
                  price := price_lots_to_number (x.1 : ℚ) gm.base_decimals
                    gm.quote_decimals gm.multiplier,
                  amount := base_lots_to_number x.2 gm.base_decimals })
      (fun x => rfl) (fun x => rfl) htop.1 htop.2.1 htop.2.2.1 htop.2.2.2
    have hperm : (((orders.mergeSort
        (fun a b => decide (a.price_lots ≤ b.price_lots))).reverse).map
          (fun x => (x.price_lots, x.amount_lots))).Perm
        (orders.map (fun x => (x.price_lots, x.amount_lots))) :=
      ((List.reverse_perm _).trans (List.mergeSort_perm orders _)).map _
    refine ⟨?_, ?_, ?_, ?_⟩
    · simpa only [sort_orders, if_pos rfl] using hmap.1
    · simpa only [sort_orders, if_pos rfl] using hmap.2.1
    · simpa only [sort_orders, if_pos rfl] using hmap.2.2.1
    · intro o ho
      have ho' := hmap.2.2.2 o
        (by simpa only [sort_orders, if_pos rfl] using ho)
      rw [ho', sum_at_price_perm o.price_lots hperm]

/-- C4: Every depth book produced by the aggregators has at most 20 levels,
no two levels share a `price_lots`, levels are strictly descending for bids
and strictly ascending for asks, and each level's size is the sum of the
input quantities at that price: for `construct_levels` under the traversal's
sort order (bids weakly descending, asks weakly ascending by price), and for
`sort_orders` on any GD order list (which sorts internally). -/
theorem claim_C4_depth_books :
    (∀ (leaves : List LeafNode) (m : ObMarketInfo),
      (leaves.map LeafNode.price).Pairwise (fun a b => b ≤ a) →
      (construct_levels leaves m 20).length ≤ 20
      ∧ ((construct_levels leaves m 20).map MarketOrder.price_lots).Nodup
      ∧ (construct_levels leaves m 20).Pairwise
          (fun a b => b.price_lots < a.price_lots)
      ∧ ∀ o ∈ construct_levels leaves m 20,
          o.size_lots = sum_at_price o.price_lots
            (leaves.map (fun x => (x.price, x.quantity))))
    ∧ (∀ (leaves : List LeafNode) (m : ObMarketInfo),
      (leaves.map LeafNode.price).Pairwise (fun a b => a ≤ b) →
      (construct_levels leaves m 20).length ≤ 20
      ∧ ((construct_levels leaves m 20).map MarketOrder.price_lots).Nodup
      ∧ (construct_levels leaves m 20).Pairwise
          (fun a b => a.price_lots < b.price_lots)
      ∧ ∀ o ∈ construct_levels leaves m 20,
          o.size_lots = sum_at_price o.price_lots
            (leaves.map (fun x => (x.price, x.quantity))))
    ∧ (∀ (orders : List GdMarketOrder) (gm : GdMarketInfo) (is_bid : Bool),
      (sort_orders orders gm 20 is_bid).length ≤ 20
      ∧ ((sort_orders orders gm 20 is_bid).map MarketOrder.price_lots).Nodup
      ∧ (sort_orders orders gm 20 is_bid).Pairwise
          (fun a b => if is_bid then b.price_lots < a.price_lots
            else a.price_lots < b.price_lots)
      ∧ ∀ o ∈ sort_orders orders gm 20 is_bid,
          o.size_lots = sum_at_price o.price_lots
            (orders.map (fun x => (x.price_lots, x.amount_lots)))) := by
  refine ⟨?_, ?_, sort_orders_props⟩
  · intro leaves m h
    refine construct_levels_props leaves m (fun a b => b < a)
      (fun a b c h1 h2 => lt_trans h2 h1) (fun a => lt_irrefl a) ?_
    refine (List.pairwise_map.mp h).imp ?_
    intro a b hab
    rcases Nat.eq_or_lt_of_le hab with he | hl
    · exact Or.inl he.symm
    · exact Or.inr hl
  · intro leaves m h
    refine construct_levels_props leaves m (fun a b => a < b)
      (fun a b c h1 h2 => lt_trans h1 h2) (fun a => lt_irrefl a) ?_
    refine (List.pairwise_map.mp h).imp ?_
    intro a b hab
    exact Nat.eq_or_lt_of_le hab

/-- C4 witness: the bid clause of `claim_C4_depth_books` at a concrete
descending leaf list with a duplicated top price (prices 100, 100, 99 — the
§8(c) shape), hypothesis discharged by computation, plus the GD clause at a
concrete order list. -/
theorem claim_C4_witness :
    ((construct_levels [⟨0, 0, 100 * 2 ^ 64, 5, 0⟩, ⟨0, 0, 100 * 2 ^ 64 + 1, 3, 0⟩,
        ⟨0, 0, 99 * 2 ^ 64, 4, 0⟩] ob_market_8a 20).length ≤ 20
      ∧ (((construct_levels [⟨0, 0, 100 * 2 ^ 64, 5, 0⟩, ⟨0, 0, 100 * 2 ^ 64 + 1, 3, 0⟩,
          ⟨0, 0, 99 * 2 ^ 64, 4, 0⟩] ob_market_8a 20).map MarketOrder.price_lots).Nodup)
      ∧ (construct_levels [⟨0, 0, 100 * 2 ^ 64, 5, 0⟩, ⟨0, 0, 100 * 2 ^ 64 + 1, 3, 0⟩,
          ⟨0, 0, 99 * 2 ^ 64, 4, 0⟩] ob_market_8a 20).Pairwise
            (fun a b => b.price_lots < a.price_lots)
      ∧ ∀ o ∈ construct_levels [⟨0, 0, 100 * 2 ^ 64, 5, 0⟩, ⟨0, 0, 100 * 2 ^ 64 + 1, 3, 0⟩,
          ⟨0, 0, 99 * 2 ^ 64, 4, 0⟩] ob_market_8a 20,
            o.size_lots = sum_at_price o.price_lots
              ([⟨0, 0, 100 * 2 ^ 64, 5, 0⟩, ⟨0, 0, 100 * 2 ^ 64 + 1, 3, 0⟩,
                (⟨0, 0, 99 * 2 ^ 64, 4, 0⟩ : LeafNode)].map (fun x => (x.price, x.quantity))))
    ∧ ((sort_orders [gd_order_A, gd_order_B, gd_order_C] gd_market_8b 20 true).length ≤ 20
      ∧ (((sort_orders [gd_order_A, gd_order_B, gd_order_C] gd_market_8b 20 true).map
            MarketOrder.price_lots).Nodup)
      ∧ (sort_orders [gd_order_A, gd_order_B, gd_order_C] gd_market_8b 20 true).Pairwise
          (fun a b => if true then b.price_lots < a.price_lots
            else a.price_lots < b.price_lots)
      ∧ ∀ o ∈ sort_orders [gd_order_A, gd_order_B, gd_order_C] gd_market_8b 20 true,
          o.size_lots = sum_at_price o.price_lots
            ([gd_order_A, gd_order_B, gd_order_C].map
              (fun x => (x.price_lots, x.amount_lots)))) := by
  constructor
  · exact claim_C4_depth_books.1 [⟨0, 0, 100 * 2 ^ 64, 5, 0⟩, ⟨0, 0, 100 * 2 ^ 64 + 1, 3, 0⟩,
      ⟨0, 0, 99 * 2 ^ 64, 4, 0⟩] ob_market_8a (by decide)
  · exact claim_C4_depth_books.2.2 [gd_order_A, gd_order_B, gd_order_C] gd_market_8b true

theorem slab_get_lt (s : Slab) (h : ℕ) (n : SlabNode)
    (hg : s.get h = some n) : h < s.nodes.length := by
  unfold Slab.get at hg
  cases hq : s.nodes.get? h with
  | none => rw [hq] at hg; simp at hg
  | some m =>
    obtain ⟨hlt, _⟩ := List.get?_eq_some.mp hq
    exact hlt

theorem matches_unique (s : Slab) :
    ∀ {t t' : HTree}, Matches s t → Matches s t' → t.handle = t'.handle →
      t = t' := by
  intro t
  induction t with
  | leaf h l =>
    intro t' h1 h2 hh
    cases h1 with
    | leaf _ _ hget =>
      cases h2 with
      | leaf h' l' hget' =>
        have hh' : h = h' := hh
        subst hh'
        rw [hget] at hget'
        simp at hget'
        rw [hget']
      | inner h' pl k t0 t1 hget' m0 m1 =>
        have hh' : h = h' := hh
        subst hh'
        rw [hget] at hget'
        simp at hget'
  | inner h t0 t1 ih0 ih1 =>
    intro t' h1 h2 hh
    cases h1 with
    | inner _ pl k _ _ hget m0 m1 =>
      cases h2 with
      | leaf h' l' hget' =>
        have hh' : h = h' := hh
        subst hh'
        rw [hget] at hget'
        simp at hget'
      | inner h' pl' k' t0' t1' hget' m0' m1' =>
        have hh' : h = h' := hh
        subst hh'
        rw [hget] at hget'
        simp only [Option.some.injEq, SlabNode.inner.injEq] at hget'
        have e0 : t0 = t0' := ih0 m0 m0' hget'.2.2.1
        have e1 : t1 = t1' := ih1 m1 m1' hget'.2.2.2
        rw [e0, e1]

theorem matches_sub (s : Slab) :
    ∀ {u t : HTree}, HTree.Sub u t → Matches s t → Matches s u := by
  intro u t hsub
  induction hsub with
  | refl => exact fun h => h
  | left h t1 hsub ih =>
    intro hm
    cases hm with
    | inner _ pl k _ _ hget m0 m1 => exact ih m0
  | right h t0 hsub ih =>
    intro hm
    cases hm with
    | inner _ pl k _ _ hget m0 m1 => exact ih m1

theorem htree_size_pos (t : HTree) : 0 < t.size := by
  cases t <;> simp [HTree.size]

theorem sub_size_le {u t : HTree} (hsub : HTree.Sub u t) : u.size ≤ t.size := by
  induction hsub with
  | refl => exact le_refl _
  | left h t1 hsub ih => simp only [HTree.size]; omega
  | right h t0 hsub ih => simp only [HTree.size]; omega

theorem matches_height_lt (s : Slab) :
    ∀ t : HTree, Matches s t →
      ∀ F : Finset ℕ, (∀ h' ∈ F, h' < s.nodes.length) →
      (∀ u : HTree, HTree.Sub u t → u.handle ∉ F) →
      t.height + F.card < s.nodes.length := by
  intro t
  induction t with
  | leaf h l =>
    intro hm F hFlt hFnot
    have hh : h < s.nodes.length := by
      cases hm with
      | leaf _ _ hget => exact slab_get_lt s h _ hget
    have hnotF : h ∉ F := hFnot (HTree.leaf h l) (HTree.Sub.refl _)
    have hsub : insert h F ⊆ Finset.range s.nodes.length := by
      intro x hx
      rcases Finset.mem_insert.mp hx with he | hx'
      · exact Finset.mem_range.mpr (he ▸ hh)
      · exact Finset.mem_range.mpr (hFlt x hx')
    have hcard := Finset.card_le_card hsub
    rw [Finset.card_insert_of_not_mem hnotF, Finset.card_range] at hcard
    simp only [HTree.height]
    omega
  | inner h t0 t1 ih0 ih1 =>
    intro hm F hFlt hFnot
    cases hm with
    | inner _ pl k _ _ hget m0 m1 =>
      have hm' : Matches s (HTree.inner h t0 t1) :=
        Matches.inner h pl k t0 t1 hget m0 m1
      have hh : h < s.nodes.length := slab_get_lt s h _ hget
      have hnotF : h ∉ F := hFnot _ (HTree.Sub.refl _)
      have hF' : ∀ h' ∈ insert h F, h' < s.nodes.length := by
        intro x hx
        rcases Finset.mem_insert.mp hx with he | hx'
        · exact he ▸ hh
        · exact hFlt x hx'
      have havoid0 : ∀ u : HTree, HTree.Sub u t0 → u.handle ∉ insert h F := by
        intro u hsub hmem
        rcases Finset.mem_insert.mp hmem with he | hmf
        · have hmu : Matches s u := matches_sub s hsub m0
          have hequ : u = HTree.inner h t0 t1 := matches_unique s hmu hm' he
          rw [hequ] at hsub
          have hsz := sub_size_le hsub
          have h1 := htree_size_pos t1
          simp only [HTree.size] at hsz
          omega
        · exact hFnot u (HTree.Sub.left h t1 hsub) hmf
      have havoid1 : ∀ u : HTree, HTree.Sub u t1 → u.handle ∉ insert h F := by
        intro u hsub hmem
        rcases Finset.mem_insert.mp hmem with he | hmf
        · have hmu : Matches s u := matches_sub s hsub m1
          have hequ : u = HTree.inner h t0 t1 := matches_unique s hmu hm' he
          rw [hequ] at hsub
          have hsz := sub_size_le hsub
          have h0 := htree_size_pos t0
          simp only [HTree.size] at hsz
          omega
        · exact hFnot u (HTree.Sub.right h t0 hsub) hmf
      have h0 := ih0 m0 (insert h F) hF' havoid0
      have h1 := ih1 m1 (insert h F) hF' havoid1
      rw [Finset.card_insert_of_not_mem hnotF] at h0 h1
      simp only [HTree.height]
      omega

theorem walk_rec_matches (s : Slab) (descending : Bool) :
    ∀ t : HTree, Matches s t → ∀ fuel : ℕ, t.height < fuel →
      walk_rec s descending fuel t.handle
        = some (if descending then t.leaves.reverse else t.leaves) := by
  intro t
  induction t with
  | leaf h l =>
    intro hm fuel hfuel
    cases hm with
    | leaf _ _ hget =>
      cases fuel with
      | zero => omega
      | succ f =>
        rw [walk_rec]
        simp only [HTree.handle]
        rw [hget]
        cases descending <;> simp [HTree.leaves]
  | inner h t0 t1 ih0 ih1 =>
    intro hm fuel hfuel
    cases hm with
    | inner _ pl k _ _ hget m0 m1 =>
      cases fuel with
      | zero => omega
      | succ f =>
        have hf0 : t0.height < f := by
          simp only [HTree.height] at hfuel
          omega
        have hf1 : t1.height < f := by
          simp only [HTree.height] at hfuel
          omega
        rw [walk_rec]
        simp only [HTree.handle]
        rw [hget]
        cases descending with
        | false =>
          simp only [Bool.false_eq_true, if_false]
          rw [ih0 m0 f hf0, ih1 m1 f hf1]
          simp [HTree.leaves]
        | true =>
          simp only [if_true]
          rw [ih1 m1 f hf1, ih0 m0 f hf0]
          simp [HTree.leaves, List.reverse_append]

theorem ordered_leaves_sorted :
    ∀ t : HTree, t.Ordered → t.leaves.Pairwise (fun a b => a.key < b.key) := by
  intro t
  induction t with
  | leaf h l => intro _; simp [HTree.leaves]
  | inner h t0 t1 ih0 ih1 =>
    intro hord
    obtain ⟨hcross, h0, h1⟩ := hord
    simp only [HTree.leaves]
    exact List.pairwise_append.mpr ⟨ih0 h0, ih1 h1, hcross⟩

theorem htree_leaves_ne_nil (t : HTree) : t.leaves ≠ [] := by
  induction t with
  | leaf h l => simp [HTree.leaves]
  | inner h t0 t1 ih0 ih1 => simp [HTree.leaves, ih0]

/-- C3: For every well-formed OB slab buffer — one whose reachable handle
graph unfolds from `root_node` into a finite tree `t` of resolvable
`Inner`/`Leaf` nodes (`Matches`), whose critbit ordering holds between
children (`Ordered`), and whose reachable leaves number exactly
`leaf_count` — `Slab.traverse` returns the leaves in strictly ascending
128-bit key order for `descending = false` and strictly descending order
for `descending = true`, with exactly `leaf_count` leaves in both cases;
and a slab with `leaf_count = 0` yields zero leaves. -/
theorem claim_C3_slab_traverse :
    (∀ (s : Slab) (t : HTree),
      Matches s t → t.handle = s.root_node → t.Ordered →
      t.leaves.length = s.leaf_count →
      s.traverse false = some t.leaves
      ∧ s.traverse true = some t.leaves.reverse
      ∧ t.leaves.length = s.leaf_count
      ∧ t.leaves.reverse.length = s.leaf_count
      ∧ t.leaves.Pairwise (fun a b => a.key < b.key)
      ∧ t.leaves.reverse.Pairwise (fun a b => b.key < a.key))
    ∧ (∀ (s : Slab) (descending : Bool), s.leaf_count = 0 →
        s.traverse descending = some []) := by
  constructor
  · intro s t hm hroot hord hlen
    have hne : t.leaves ≠ [] := htree_leaves_ne_nil t
    have hpos : 0 < t.leaves.length := List.length_pos.mpr hne
    have hlc : ¬(s.leaf_count = 0) := by omega
    have hheight : t.height < s.nodes.length + 1 := by
      have h := matches_height_lt s t hm ∅ (by simp) (by simp)
      simpa using by omega
    have hwalkf := walk_rec_matches s false t hm (s.nodes.length + 1) hheight
    have hwalkt := walk_rec_matches s true t hm (s.nodes.length + 1) hheight
    rw [hroot] at hwalkf hwalkt
    have hsorted := ordered_leaves_sorted t hord
    have hwalkf' : walk_rec s false (s.nodes.length + 1) s.root_node
        = some t.leaves := by simpa using hwalkf
    have hwalkt' : walk_rec s true (s.nodes.length + 1) s.root_node
        = some t.leaves.reverse := by simpa using hwalkt
    refine ⟨?_, ?_, hlen, by simpa using hlen, hsorted, ?_⟩
    · simp [Slab.traverse, Slab.root, hlc, hwalkf', hlen]
    · simp [Slab.traverse, Slab.root, hlc, hwalkt', hlen]
    · rw [List.pairwise_reverse]
      exact hsorted
  · intro s descending h0
    simp [Slab.traverse, Slab.root, h0]

/-- C3 witness: `claim_C3_slab_traverse` applied to the concrete two-leaf
slab `slab_ex` (keys 5 and 9), all well-formedness hypotheses discharged
explicitly. -/
theorem claim_C3_witness :
    slab_ex.traverse false = some htree_ex.leaves
    ∧ slab_ex.traverse true = some htree_ex.leaves.reverse
    ∧ htree_ex.leaves.length = slab_ex.leaf_count
    ∧ htree_ex.leaves.reverse.length = slab_ex.leaf_count
    ∧ htree_ex.leaves.Pairwise (fun a b => a.key < b.key)
    ∧ htree_ex.leaves.reverse.Pairwise (fun a b => b.key < a.key) := by
  refine claim_C3_slab_traverse.1 slab_ex htree_ex ?_ rfl ?_ rfl
  · refine Matches.inner 0 0 0 (HTree.leaf 1 leaf_k5) (HTree.leaf 2 leaf_k9)
      rfl (Matches.leaf 1 leaf_k5 rfl) (Matches.leaf 2 leaf_k9 rfl)
  · refine ⟨?_, trivial, trivial⟩
    intro a ha b hb
    simp only [HTree.leaves, List.mem_singleton] at ha hb
    rw [ha, hb]
    decide
